import Mathlib

/-!
# Verification of the chutor mistake-classification core

This file gives a shallow embedding, in Lean 4, of the algorithmic core of the
chutor repository: the server-side move classifier and position-bootstrap
engine (`server` `analysis` module, the `analyzeGames` export), the parallel
batch orchestrator and its merge step (`server/src/index.ts`,
`analyzeWithParallelWorkers`, together with the per-chunk worker wrapper in
`server/src/worker-thread.js`), and the content-addressed summary cache
(`server/src/analysis.ts` / `cache`, class `SummaryCache`).

Modelling conventions, chosen once and used throughout:

* JavaScript numbers that the code treats as integral (centipawns, plies,
  byte counts, versions) are modelled as `Int` or `Nat`.
* JavaScript truthiness on strings (`if (s)`, `a || b`) is modelled
  explicitly: the empty string is falsy.
* `String.prototype.toLowerCase` / `trim` are modelled on the underlying
  character list for the ASCII range (all inputs of interest are ASCII).
* JS `Array.prototype.sort` is (per the ECMAScript specification) a stable
  sort; it is modelled by a stable insertion sort `ssort` defined below.
* JS `Map` objects are modelled as association lists with
  insertion-order-preserving `mset`/`mget`.
* The `chess.js` move replay used by `computePositions` is external to the
  repository; the per-ply board states it returns are carried as data on the
  game record (field `positions`), as structured FEN values whose `render`
  reproduces the full six-field FEN string that `chess.js`'s `fen()` emits.
  The classifier only ever uses these strings as opaque keys, exactly as the
  source does.
* The SHA-256 digest in `computeKeyFromDataset` is modelled as the identity
  on the canonical payload (sorted tuple list plus normalized options): the
  JSON serialization of that payload and the digest are both injective on
  this shape, so key equality coincides with payload equality.
-/

/-! ## JavaScript string semantics helpers -/

/-- ASCII lower-casing of one character, as `String.prototype.toLowerCase`
acts on the ASCII range. -/
def jsLowerChar (c : Char) : Char :=
  if 65 ≤ c.toNat ∧ c.toNat ≤ 90 then Char.ofNat (c.toNat + 32) else c

/-- ASCII model of `String.prototype.toLowerCase`. -/
def jsToLower (s : String) : String := ⟨s.data.map jsLowerChar⟩

/-- Whitespace test used by the model of `String.prototype.trim`. -/
def isWsChar (c : Char) : Bool := c = ' ' ∨ c = '\t' ∨ c = '\n' ∨ c = '\r'

/-- Model of `String.prototype.trim`. -/
def jsTrim (s : String) : String :=
  ⟨((s.data.dropWhile isWsChar).reverse.dropWhile isWsChar).reverse⟩

/-- `s.trim().toLowerCase()`, the username normalization used everywhere in
the analysis code. -/
def normName (s : String) : String := jsToLower (jsTrim s)

/-- JS truthiness of an optional string: `undefined` and `""` are falsy. -/
def truthy : Option String → Bool
  | none => false
  | some s => s ≠ ""

/-- First truthy value of a JS `||` chain of optional strings. -/
def firstTruthy : List (Option String) → Option String
  | [] => none
  | o :: rest => if truthy o then o else firstTruthy rest

/-! ## JS `Map` model: association lists with insertion order -/

/-- `Map.prototype.get`. -/
def mget {σ τ : Type} [DecidableEq σ] (m : List (σ × τ)) (k : σ) : Option τ :=
  (m.find? (fun p => p.1 = k)).map (·.2)

/-- `Map.prototype.set`: replace in place if the key is present (keeping its
insertion position), else append. -/
def mset {σ τ : Type} [DecidableEq σ] (m : List (σ × τ)) (k : σ) (v : τ) :
    List (σ × τ) :=
  if m.any (fun p => p.1 = k) then
    m.map (fun p => if p.1 = k then (k, v) else p)
  else m ++ [(k, v)]

/-- `Map.prototype.delete`. -/
def mdelete {σ τ : Type} [DecidableEq σ] (m : List (σ × τ)) (k : σ) :
    List (σ × τ) :=
  m.filter (fun p => ¬ p.1 = k)

/-- JS `a || b` on a string with a default: the empty string falls through. -/
def jsOr (o : Option String) (d : String) : String :=
  match o with
  | some s => if s = "" then d else s
  | none => d

/-- JS `a || b` on two optional strings. -/
def jsOrOpt (a b : Option String) : Option String :=
  if truthy a then a else b

/-! ## Data model

`AnalyzedMove` carries the loosely-typed per-move record the classifier reads
(`mv.ply`, `mv.judgment.name`, `mv.judgment.cp`, `mv.eval.cp`,
`mv.eval.mate`), each field optional exactly as in the source. -/

inductive Side | white | black
deriving DecidableEq, Repr

inductive Kind | inaccuracy | mistake | blunder
deriving DecidableEq, Repr

structure AnalyzedMove where
  ply : Option Int := none
  judgmentName : Option String := none
  judgmentCp : Option Int := none
  evalCp : Option Int := none
  evalMate : Option Int := none
deriving DecidableEq, Repr

/-- A full FEN as produced by `chess.js`'s `fen()`: six space-separated
fields. -/
structure Fen where
  placement : String
  sideToMove : String
  castling : String
  enPassant : String
  halfmove : String
  fullmove : String
deriving DecidableEq, Repr

/-- The string `chess.js` returns for a position; this is what
`computePositions` stores and what the bootstrap engine keys its index by. -/
def Fen.render (f : Fen) : String :=
  f.placement ++ " " ++ f.sideToMove ++ " " ++ f.castling ++ " " ++
    f.enPassant ++ " " ++ f.halfmove ++ " " ++ f.fullmove

/-- A game record, normalized to the fields the core reads.  `whiteSources`
and `blackSources` are the ordered `||` fallback chains the source uses to
find a player name (`players.white.user.name`, `players.white.userId`,
`players.white.name`, `white.user.name`, `white.name`, and the `[White "..."]`
PGN tag extracted by regex, in that order); the regex extraction itself is
carried as the last element of the chain.  `positions` is the `chess.js`
replay of `pgn.raw` (see the header comment). -/
structure GameRec where
  id : String := ""
  openingName : Option String := none
  analysis : List AnalyzedMove := []
  whiteSources : List (Option String) := []
  blackSources : List (Option String) := []
  positions : List (Int × Fen) := []
deriving DecidableEq, Repr

/-- One mistake event / raw label. Events pushed to `topBlunders` and the
`rawLabels` list in the source carry exactly these fields; bootstrap-applied
events additionally carry `bootstrapped = true`. -/
structure MEvent where
  gameId : String
  moveNumber : Int
  ply : Int
  side : Side
  centipawnLoss : Option Int
  kind : Kind
  opening : String
  bootstrapped : Bool := false
deriving DecidableEq, Repr

/-! ## Shared per-ply arithmetic -/

/-- `Math.ceil(ply / 2)` for integral `ply`. -/
def moveNumberOf (p : Int) : Int := (p + 1).ediv 2

/-- `ply % 2 === 1 ? 'white' : 'black'` (JS `%` truncates toward zero). -/
def sideOfPly (p : Int) : Side := if p.tmod 2 = 1 then Side.white else Side.black

/-- The username filter: with a resolved target side, only moves of that side
pass (`targetSide === 'white' && !isWhiteMove || ...` skip logic). -/
def passesFilter (ts : Option Side) (p : Int) : Bool :=
  match ts with
  | none => true
  | some Side.white => p.tmod 2 = 1
  | some Side.black => ¬ p.tmod 2 = 1

/-! ## Stable sort (model of JS `Array.prototype.sort`)

JS `sort(cmp)` is stable.  `ssort key prec` is a stable insertion sort: each
element is inserted before the first already-placed element that does not
strictly precede it, so elements whose keys tie keep their original relative
order.  `prec u v = true` means "key `u` strictly precedes key `v` in the
output order" (for the repository's descending centipawn sort,
`prec u v = (v < u)`). -/

section StableSort
set_option linter.unusedSectionVars false

variable {α : Type} {κ : Type} [DecidableEq κ]

def sinsert (key : α → κ) (prec : κ → κ → Bool) (x : α) : List α → List α
  | [] => [x]
  | c :: t =>
    if prec (key c) (key x) then c :: sinsert key prec x t else x :: c :: t

def ssort (key : α → κ) (prec : κ → κ → Bool) : List α → List α
  | [] => []
  | x :: xs => sinsert key prec x (ssort key prec xs)

/-- Output-order invariant: `b` never strictly precedes an `a` placed before
it. -/
def SortedBy (key : α → κ) (prec : κ → κ → Bool) (l : List α) : Prop :=
  l.Pairwise (fun a b => prec (key b) (key a) = false)

/-- The elements with a fixed key, in list order. -/
def filterKey (key : α → κ) (k : κ) (l : List α) : List α :=
  l.filter (fun e => key e = k)

variable {key : α → κ} {prec : κ → κ → Bool}

theorem sinsert_perm (x : α) (l : List α) :
    (sinsert key prec x l).Perm (x :: l) := by
  induction l with
  | nil => simp [sinsert]
  | cons c t ih =>
    by_cases h : prec (key c) (key x) = true
    · simpa [sinsert, h] using ((ih.cons c).trans (List.Perm.swap x c t))
    · simp at h
      simp [sinsert, h]

theorem ssort_perm (l : List α) : (ssort key prec l).Perm l := by
  induction l with
  | nil => simp [ssort]
  | cons x xs ih =>
    exact (sinsert_perm x (ssort key prec xs)).trans (ih.cons x)

theorem mem_sinsert {y x : α} {l : List α} (h : y ∈ sinsert key prec x l) :
    y = x ∨ y ∈ l := by
  have := (sinsert_perm x l).mem_iff.mp h
  simpa using this


theorem filterKey_cons (key : α → κ) (a : α) (l : List α) (k : κ) :
    filterKey key k (a :: l) =
      if key a = k then a :: filterKey key k l else filterKey key k l := by
  by_cases h : key a = k <;> simp [filterKey, h]

section Order
set_option linter.unusedSectionVars false

variable (hasym : ∀ u v, prec u v = true → prec v u = false)
variable (htrans : ∀ u v w, prec u v = true → prec v w = true → prec u w = true)
variable (hconn : ∀ u v, prec u v = false → prec v u = false → u = v)

include hasym in
theorem prec_irrefl (u : κ) : prec u u = false := by
  by_cases h : prec u u = true
  · exact hasym u u h
  · simpa using h

include hasym htrans hconn in
theorem sortedBy_sinsert {x : α} {l : List α} (hl : SortedBy key prec l) :
    SortedBy key prec (sinsert key prec x l) := by
  induction l with
  | nil => simp [sinsert, SortedBy]
  | cons c t ih =>
    have hc : ∀ y ∈ t, prec (key y) (key c) = false :=
      fun y hy => (List.pairwise_cons.mp hl).1 y hy
    have ht : SortedBy key prec t := (List.pairwise_cons.mp hl).2
    by_cases h : prec (key c) (key x) = true
    · have hrec := ih ht
      simp only [sinsert, h, if_pos]
      refine List.pairwise_cons.mpr ⟨?_, hrec⟩
      intro y hy
      rcases mem_sinsert hy with rfl | hy'
      · exact hasym _ _ h
      · exact hc y hy'
    · simp only [Bool.not_eq_true] at h
      simp only [sinsert, h, Bool.false_eq_true, if_neg, not_false_iff]
      refine List.pairwise_cons.mpr ⟨?_, hl⟩
      intro y hy
      rcases List.mem_cons.mp hy with rfl | hy'
      · exact h
      · by_cases hyx : prec (key y) (key x) = true
        · exfalso
          have hyc := hc y hy'
          rcases Bool.eq_false_or_eq_true (prec (key c) (key y)) with hcy | hcy
          · have hcx : prec (key c) (key x) = true := htrans _ _ _ hcy hyx
            rw [hcx] at h
            simp at h
          · have hk : key y = key c := hconn _ _ hyc hcy
            rw [hk] at hyx
            rw [h] at hyx
            simp at hyx
        · simpa using hyx

include hasym htrans hconn in
theorem sortedBy_ssort (l : List α) : SortedBy key prec (ssort key prec l) := by
  induction l with
  | nil => simp [ssort, SortedBy]
  | cons x xs ih => exact sortedBy_sinsert hasym htrans hconn ih

include hasym in
theorem filterKey_sinsert (x : α) (l : List α) (k : κ) :
    filterKey key k (sinsert key prec x l) =
      if key x = k then x :: filterKey key k l else filterKey key k l := by
  induction l with
  | nil => by_cases h : key x = k <;> simp [sinsert, filterKey, h]
  | cons c t ih =>
    rw [sinsert]
    by_cases hpc : prec (key c) (key x) = true
    · rw [if_pos hpc]
      by_cases hxk : key x = k
      · have hck : ¬ key c = k := by
          intro hck
          have h2 : prec k k = true := by rw [hck, hxk] at hpc; exact hpc
          rw [prec_irrefl hasym k] at h2
          simp at h2
        simp [filterKey_cons, ih, hxk, hck]
      · simp [filterKey_cons, ih, hxk]
    · rw [if_neg hpc]
      simp [filterKey_cons]

include hasym in
theorem filterKey_ssort (l : List α) (k : κ) :
    filterKey key k (ssort key prec l) = filterKey key k l := by
  induction l with
  | nil => simp [ssort]
  | cons x xs ih =>
    rw [ssort, filterKey_sinsert hasym, ih]
    by_cases hxk : key x = k <;> simp [filterKey_cons, hxk]

include hasym hconn in
theorem sortedBy_eq_of_filterKey (s : List α) :
    ∀ t : List α, SortedBy key prec s → SortedBy key prec t →
      (∀ k, filterKey key k s = filterKey key k t) → s = t := by
  induction s with
  | nil =>
    intro t _ _ hf
    cases t with
    | nil => rfl
    | cons b t' =>
      exfalso
      have h := hf (key b)
      rw [filterKey_cons] at h
      simp [filterKey] at h
  | cons a s' ih =>
    intro t hs ht hf
    cases t with
    | nil =>
      exfalso
      have h := hf (key a)
      rw [filterKey_cons] at h
      simp [filterKey] at h
    | cons b t' =>
      have has : ∀ y ∈ s', prec (key y) (key a) = false :=
        fun y hy => (List.pairwise_cons.mp hs).1 y hy
      have hbt : ∀ y ∈ t', prec (key y) (key b) = false :=
        fun y hy => (List.pairwise_cons.mp ht).1 y hy
      have hs' := (List.pairwise_cons.mp hs).2
      have ht' := (List.pairwise_cons.mp ht).2
      have hab : prec (key a) (key b) = false := by
        have hmem : a ∈ filterKey key (key a) (b :: t') := by
          rw [← hf]
          rw [filterKey_cons, if_pos rfl]
          exact List.mem_cons_self a _
        have hmem' : a ∈ b :: t' := (List.mem_filter.mp hmem).1
        rcases List.mem_cons.mp hmem' with rfl | hy
        · exact prec_irrefl hasym (key a)
        · exact hbt a hy
      have hba : prec (key b) (key a) = false := by
        have hmem : b ∈ filterKey key (key b) (a :: s') := by
          rw [hf]
          rw [filterKey_cons, if_pos rfl]
          exact List.mem_cons_self b _
        have hmem' : b ∈ a :: s' := (List.mem_filter.mp hmem).1
        rcases List.mem_cons.mp hmem' with rfl | hy
        · exact prec_irrefl hasym (key b)
        · exact has b hy
      have hkey : key a = key b := hconn _ _ hab hba
      have hhead := hf (key a)
      rw [filterKey_cons, if_pos rfl, filterKey_cons, if_pos hkey.symm] at hhead
      injection hhead with h1 h2
      have hftails : ∀ k, filterKey key k s' = filterKey key k t' := by
        intro k
        have h := hf k
        rw [filterKey_cons, filterKey_cons] at h
        by_cases hk : key a = k
        · rw [if_pos hk, if_pos (hkey.symm.trans hk)] at h
          injection h
        · rw [if_neg hk, if_neg (fun hbk => hk (hkey.trans hbk))] at h
          exact h
      rw [h1]
      exact congrArg (b :: ·) (ih t' hs' ht' hftails)

include hasym htrans hconn in
theorem ssort_eq_of_filterKey {l₁ l₂ : List α}
    (hf : ∀ k, filterKey key k l₁ = filterKey key k l₂) :
    ssort key prec l₁ = ssort key prec l₂ := by
  refine sortedBy_eq_of_filterKey hasym hconn _ _
    (sortedBy_ssort hasym htrans hconn l₁) (sortedBy_ssort hasym htrans hconn l₂) ?_
  intro k
  rw [filterKey_ssort hasym, filterKey_ssort hasym]
  exact hf k

include hasym htrans hconn in
/-- Re-sorting the concatenation of per-chunk sorted lists yields the same
list as sorting the full concatenation: the merge step's
`concat-then-sort` over sorted worker lists equals sorting directly. -/
theorem ssort_join_map_ssort (chunks : List (List α)) :
    ssort key prec (chunks.map (ssort key prec)).flatten =
      ssort key prec chunks.flatten := by
  refine ssort_eq_of_filterKey hasym htrans hconn ?_
  intro k
  induction chunks with
  | nil => simp
  | cons c cs ih =>
    simp only [List.map_cons, List.flatten, filterKey, List.filter_append] at ih ⊢
    rw [← filterKey, ← filterKey, filterKey_ssort hasym]
    simp only [filterKey]
    rw [ih]

end Order
end StableSort

/-! ## The classifier (`analyzeGames` in the server analysis module)

This models the exported `analyzeGames` of the server analysis module (the
one `worker-thread.js` loads from `dist/analysis.js`): per game a
label-trusting pass over `game.analysis`, then — only when no move carries a
truthy `judgment.name` — a derivation pass over consecutive raw evaluations,
and finally (when a truthy `bootstrapOpening` option is present) the
position-bootstrap phase. -/

/-- `analyzedMoves.some((mv) => mv?.judgment?.name)`. -/
def hasJudgments (g : GameRec) : Bool :=
  g.analysis.any (fun mv => truthy mv.judgmentName)

/-- `String(game?.opening?.name ?? 'Unknown')`. -/
def openingOf (g : GameRec) : String := g.openingName.getD "Unknown"

/-- The per-game resolution of the target side for the username filter:
compare each player-name fallback chain, normalized, against the normalized
target (white first, then black, else no filter). -/
def targetSideFor (g : GameRec) (tgt : String) : Option Side :=
  if ((firstTruthy g.whiteSources).map normName) = some tgt then some Side.white
  else if ((firstTruthy g.blackSources).map normName) = some tgt then some Side.black
  else none

/-- `options.onlyForUsername?.trim().toLowerCase() || ''` then the
`if (normalizedTarget)` guard. -/
def resolvedTarget (g : GameRec) (onlyForUsername : Option String) : Option Side :=
  let normTgt := (onlyForUsername.map normName).getD ""
  if normTgt = "" then none else targetSideFor g normTgt

/-- `judgment.toLowerCase()` switched over the three recognized names. -/
def kindOfName (s : String) : Option Kind :=
  if jsToLower s = "inaccuracy" then some Kind.inaccuracy
  else if jsToLower s = "mistake" then some Kind.mistake
  else if jsToLower s = "blunder" then some Kind.blunder
  else none

/-- One iteration of the label-trusting `forEach` (0-based index `idx`):
skip moves without a truthy `judgment.name`, apply the side filter, and map
the label to a severity, passing `judgment.cp` through. -/
def labelStep (gid opening : String) (ts : Option Side) (idx : Nat)
    (mv : AnalyzedMove) : Option MEvent :=
  match mv.judgmentName with
  | none => none
  | some jname =>
    if jname = "" then none
    else
      let p : Int := mv.ply.getD (Int.ofNat idx + 1)
      if ¬ passesFilter ts p then none
      else
        (kindOfName jname).map fun k =>
          { gameId := gid, moveNumber := moveNumberOf p, ply := p,
            side := sideOfPly p, centipawnLoss := mv.judgmentCp, kind := k,
            opening := opening, bootstrapped := false }

/-- All events of the label-trusting pass, in emission order. -/
def labelEvents (gid opening : String) (ts : Option Side)
    (moves : List AnalyzedMove) : List MEvent :=
  moves.enum.filterMap (fun p => labelStep gid opening ts p.1 p.2)

/-- The per-entry view `{ cp: m?.eval?.cp ?? m?.judgment?.cp, mate: m?.eval?.mate,
ply: m?.ply }` built by the derivation pass. -/
structure EvalEntry where
  cp : Option Int
  mate : Option Int
  ply : Option Int
deriving DecidableEq, Repr

def evalsOf (moves : List AnalyzedMove) : List EvalEntry :=
  moves.map (fun m => ⟨m.evalCp.orElse (fun _ => m.judgmentCp), m.evalMate, m.ply⟩)

/-- `Math.abs(curr.cp - prev.cp)` when both are numbers, else `0` — the
derivation pass's swing (note: absolute value, and no mate-flag check beyond
the absence of `cp`). -/
def absDelta (prev curr : EvalEntry) : Int :=
  match prev.cp, curr.cp with
  | some a, some b => (b - a).natAbs
  | _, _ => 0

/-- The severity thresholds of the derivation pass applied to a swing. -/
def kindOfDelta (delta : Int) : Option Kind :=
  if delta ≥ 250 then some Kind.blunder
  else if delta ≥ 150 then some Kind.mistake
  else if delta ≥ 60 then some Kind.inaccuracy
  else none

/-- One iteration of the derivation loop: `curr` sits at 0-based index `i`
(the loop starts at `i = 1`). -/
def evalStep (gid opening : String) (ts : Option Side) (i : Nat)
    (prev curr : EvalEntry) : Option MEvent :=
  let p : Int := curr.ply.getD (Int.ofNat i + 1)
  if ¬ passesFilter ts p then none
  else
    let delta := absDelta prev curr
    (kindOfDelta delta).map fun k =>
      { gameId := gid, moveNumber := moveNumberOf p, ply := p,
        side := sideOfPly p, centipawnLoss := if delta > 0 then some delta else none,
        kind := k, opening := opening, bootstrapped := false }

def evalEventsAux (gid opening : String) (ts : Option Side) :
    Nat → EvalEntry → List EvalEntry → List MEvent
  | _, _, [] => []
  | i, prev, curr :: rest =>
    match evalStep gid opening ts i prev curr with
    | some e => e :: evalEventsAux gid opening ts (i + 1) curr rest
    | none => evalEventsAux gid opening ts (i + 1) curr rest

/-- All events of the raw-evaluation derivation pass, in emission order. -/
def evalEvents (gid opening : String) (ts : Option Side)
    (moves : List AnalyzedMove) : List MEvent :=
  match evalsOf moves with
  | [] => []
  | e0 :: rest => evalEventsAux gid opening ts 1 e0 rest

/-- All non-bootstrap events one game contributes, in emission order: the
label pass, then — only if no move carries a truthy judgment label and the
move list is non-empty — the derivation pass. -/
def gameEvents (onlyForUsername : Option String) (g : GameRec) : List MEvent :=
  let gid := g.id
  let opening := openingOf g
  let ts := resolvedTarget g onlyForUsername
  labelEvents gid opening ts g.analysis ++
    (if ¬ hasJudgments g ∧ g.analysis ≠ [] then evalEvents gid opening ts g.analysis
     else [])

/-! ## Summary construction -/

structure Totals where
  inaccuracies : Nat := 0
  mistakes : Nat := 0
  blunders : Nat := 0
deriving DecidableEq, Repr

/-- The summary object built by `analyzeGames`: severity totals, per-opening
counters (modelled as finitely-supported functions, zero off their support,
matching the `(map[key] ?? 0) + 1` idiom), and the two top lists. -/
@[ext]
structure Summary where
  total : Totals
  mistakesByOpening : String → Nat
  blundersByOpening : String → Nat
  topBlunders : List MEvent
  topMistakes : List MEvent

def emptySummary : Summary :=
  { total := {}, mistakesByOpening := fun _ => 0, blundersByOpening := fun _ => 0,
    topBlunders := [], topMistakes := [] }

/-- `(map[key] ?? 0) + 1`. -/
def bumpMap (f : String → Nat) (k : String) : String → Nat :=
  fun x => if x = k then f x + 1 else f x

/-- Folding one event into the summary: every event bumps its severity total
and `mistakesByOpening`; blunders additionally bump `blundersByOpening`;
non-bootstrapped blunders are pushed to `topBlunders`; bootstrapped events
are pushed to `topMistakes` (exactly the pushes the source performs in the
label pass, the derivation pass and the bootstrap apply loop). -/
def addEvent (s : Summary) (e : MEvent) : Summary :=
  { total :=
      match e.kind with
      | Kind.inaccuracy => { s.total with inaccuracies := s.total.inaccuracies + 1 }
      | Kind.mistake => { s.total with mistakes := s.total.mistakes + 1 }
      | Kind.blunder => { s.total with blunders := s.total.blunders + 1 },
    mistakesByOpening := bumpMap s.mistakesByOpening e.opening,
    blundersByOpening :=
      if e.kind = Kind.blunder then bumpMap s.blundersByOpening e.opening
      else s.blundersByOpening,
    topBlunders :=
      if e.kind = Kind.blunder ∧ e.bootstrapped = false then s.topBlunders ++ [e]
      else s.topBlunders,
    topMistakes :=
      if e.bootstrapped = true then s.topMistakes ++ [e] else s.topMistakes }

/-- `(b.centipawnLoss ?? 0)`, the sort key of both top lists. -/
def lossKey (e : MEvent) : Int := e.centipawnLoss.getD 0

/-- Descending order on the loss key; `precDesc u v` says an element keyed
`u` strictly precedes one keyed `v`. -/
def precDesc (u v : Int) : Bool := v < u

/-- `list.sort((a, b) => (b.centipawnLoss ?? 0) - (a.centipawnLoss ?? 0))`. -/
def sortTop (l : List MEvent) : List MEvent := ssort lossKey precDesc l

/-! ## The bootstrap engine (`analyzeGames` with a truthy `bootstrapOpening`) -/

/-- The per-ply FEN strings `computePositions` returns for a game (the
`chess.js` replay, carried as data; see the header comment). -/
def computePositions (g : GameRec) : List (Int × String) :=
  g.positions.map (fun p => (p.1, p.2.render))

/-- `gameIsEvaluated`: some move has a truthy `judgment.name` or a numeric
`eval.cp`. -/
def gameIsEvaluated (g : GameRec) : Bool :=
  hasJudgments g || g.analysis.any (fun mv => mv.evalCp.isSome)

/-- `severityRank`. -/
def severityRank : Kind → Nat
  | Kind.blunder => 3
  | Kind.mistake => 2
  | Kind.inaccuracy => 1

/-- An `Aggregated` index entry. -/
structure Agg where
  kind : Kind
  moveNumber : Int
  ply : Int
  opening : String
  cp : Option Int
  frequency : Nat
deriving DecidableEq, Repr

/-- Folding one raw label into an existing aggregate: bump frequency, keep
the most severe label (strictly higher rank replaces), and keep the largest
numeric centipawn loss. -/
def aggUpdate (old : Agg) (lbl : MEvent) : Agg :=
  let bumped := { old with frequency := old.frequency + 1 }
  let sev :=
    if severityRank lbl.kind > severityRank old.kind then
      { bumped with kind := lbl.kind, moveNumber := lbl.moveNumber,
                    ply := lbl.ply, opening := lbl.opening }
    else bumped
  match lbl.centipawnLoss with
  | some c =>
      if old.cp = none ∨ c > old.cp.getD 0 then { sev with cp := some c } else sev
  | none => sev

/-- `openingByGame`: built in the main loop, one `set` per game with a
truthy id. -/
def openingByGame (games : List GameRec) : List (String × String) :=
  games.foldl (fun m g => if g.id = "" then m else mset m g.id (openingOf g)) []

/-- `gameById` (built in the bootstrap phase). -/
def gameById (games : List GameRec) : List (String × GameRec) :=
  games.foldl (fun m g => if g.id = "" then m else mset m g.id g) []

/-- JS `Set` insertion order: keep first occurrences. -/
def dedupFirst (l : List String) : List String :=
  l.foldl (fun acc x => if x ∈ acc then acc else acc ++ [x]) []

/-- `positionsByGame`: positions of every game that produced a raw label,
then positions of every unevaluated game of the selected opening. -/
def positionsByGame (games : List GameRec) (rawLabels : List MEvent)
    (ro : String) : List (String × List (Int × String)) :=
  let evalIds := dedupFirst (rawLabels.map (·.gameId))
  let m1 := evalIds.foldl
    (fun m gid =>
      match mget (gameById games) gid with
      | some g => mset m gid (computePositions g)
      | none => m) []
  games.foldl
    (fun m g =>
      if g.id = "" then m
      else
        let opening := jsOr (mget (openingByGame games) g.id) "Unknown"
        if opening ≠ ro then m
        else if hasJudgments g || g.analysis.any (fun mv => mv.evalCp.isSome) then m
        else mset m g.id (computePositions g)) m1

/-- `fenIndex`: fold the raw labels into `signature → Aggregated`. -/
def fenIndex (games : List GameRec) (rawLabels : List MEvent) (ro : String) :
    List (String × Agg) :=
  rawLabels.foldl
    (fun idx lbl =>
      match mget (positionsByGame games rawLabels ro) lbl.gameId with
      | none => idx
      | some pos =>
        match mget pos lbl.ply with
        | none => idx
        | some fen =>
          match mget idx fen with
          | none =>
              mset idx fen
                { kind := lbl.kind, moveNumber := lbl.moveNumber, ply := lbl.ply,
                  opening := lbl.opening, cp := lbl.centipawnLoss, frequency := 1 }
          | some old => mset idx fen (aggUpdate old lbl)) []

/-- One candidate ply of the apply loop: skip ply 0, look the FEN string up
in the index, and apply the aggregate only when the mover parity matches. -/
def applyAt (idx : List (String × Agg)) (gid opening : String)
    (pf : Int × String) : Option MEvent :=
  if pf.1 = 0 then none
  else
    match mget idx pf.2 with
    | none => none
    | some agg =>
      let side := sideOfPly pf.1
      if side ≠ sideOfPly agg.ply then none
      else
        some { gameId := gid, moveNumber := moveNumberOf pf.1,
               ply := pf.1, side := side, centipawnLoss := agg.cp,
               kind := agg.kind, opening := opening, bootstrapped := true }

/-- The bootstrap apply loop: for every unevaluated game of the selected
opening, look up each of its per-ply positions in the index and apply the
aggregate when the mover parity matches. -/
def bootstrapEvents (games : List GameRec) (rawLabels : List MEvent)
    (ro : String) : List MEvent :=
  let idx := fenIndex games rawLabels ro
  let posMap := positionsByGame games rawLabels ro
  (games.map (fun g =>
    if gameIsEvaluated g then []
    else if g.id = "" then []
    else
      let opening := jsOr (mget (openingByGame games) g.id) "Unknown"
      if opening ≠ ro then []
      else
        match mget posMap g.id with
        | none => []
        | some pos => pos.filterMap (applyAt idx g.id opening))).flatten

/-- The exported server `analyzeGames`: label/derivation passes over every
game, optional bootstrap phase, fold into the summary, final stable sorts of
the top lists. -/
def analyzeGames (games : List GameRec) (onlyForUsername : Option String)
    (bootstrapOpening : Option String) : Summary :=
  let baseEvents := (games.map (gameEvents onlyForUsername)).flatten
  let bootEvents :=
    match bootstrapOpening with
    | none => []
    | some ro => if ro = "" then [] else bootstrapEvents games baseEvents ro
  let s := (baseEvents ++ bootEvents).foldl addEvent emptySummary
  { s with topBlunders := sortTop s.topBlunders,
           topMistakes := sortTop s.topMistakes }

/-! ## Username auto-detection (`deriveUsernameFromGames`) and the worker -/

/-- The per-game set of normalized player names (`extractGameNames` feeding a
`Set`): white then black, only entries that are strings with non-blank trim,
normalized, first occurrence kept. -/
def gameNames (g : GameRec) : List String :=
  dedupFirst
    ([firstTruthy g.whiteSources, firstTruthy g.blackSources].filterMap
      (fun o =>
        match o with
        | some s => if jsTrim s = "" then none else some (normName s)
        | none => none))

/-- The insertion-ordered `counts` map of `deriveUsernameFromGames`. -/
def nameCounts (games : List GameRec) : List (String × Nat) :=
  games.foldl
    (fun m g =>
      (gameNames g).foldl (fun m' n => mset m' n ((mget m' n).getD 0 + 1)) m) []

/-- `deriveUsernameFromGames`: the first name (in insertion order) with a
strictly maximal count; both exit paths of the source return `best`. -/
def deriveUsernameFromGames (games : List GameRec) : Option String :=
  ((nameCounts games).foldl
    (fun best p => if p.2 > best.2 then (some p.1, p.2) else best)
    ((none : Option String), 0)).1

/-- `worker-thread.js`: derive the target username when the option is falsy,
then run the classifier with *only* `onlyForUsername` set (the worker does
not forward `bootstrapOpening` to `analyzeGames`). -/
def workerSummary (onlyForUsername : Option String) (chunk : List GameRec) :
    Summary :=
  let targetUsername := jsOrOpt onlyForUsername (deriveUsernameFromGames chunk)
  analyzeGames chunk (if truthy targetUsername then targetUsername else none) none

/-! ## The orchestrator (`analyzeWithParallelWorkers`) -/

/-- Contiguous chunks of a fixed size (`workingSet.slice(i, i + chunkSize)`);
the fuel (`l.length` at the top call) only serves structural recursion and is
never exhausted while the list is non-empty and the size positive. -/
def chunksOfAux {β : Type} (size : Nat) : Nat → List β → List (List β)
  | _, [] => []
  | 0, _ :: _ => []
  | fuel + 1, x :: xs =>
    ((x :: xs).take size) :: chunksOfAux size fuel ((x :: xs).drop size)

def chunksOf {β : Type} (size : Nat) (l : List β) : List (List β) :=
  if size = 0 then [] else chunksOfAux size l.length l

/-- The merge step of `analyzeWithParallelWorkers`: sum severity totals,
pointwise-add the per-opening maps, concatenate the top lists, then re-sort
both by loss, descending. -/
def addTotals (a b : Totals) : Totals :=
  { inaccuracies := a.inaccuracies + b.inaccuracies,
    mistakes := a.mistakes + b.mistakes,
    blunders := a.blunders + b.blunders }

def mergeStep (acc : Summary) (r : Summary) : Summary :=
  { total := addTotals acc.total r.total,
    mistakesByOpening := fun k => acc.mistakesByOpening k + r.mistakesByOpening k,
    blundersByOpening := fun k => acc.blundersByOpening k + r.blundersByOpening k,
    topBlunders := acc.topBlunders ++ r.topBlunders,
    topMistakes := acc.topMistakes ++ r.topMistakes }

def mergeSummaries (rs : List Summary) : Summary :=
  let m := rs.foldl mergeStep emptySummary
  { m with topBlunders := sortTop m.topBlunders,
           topMistakes := sortTop m.topMistakes }

/-- `Promise.all` over the per-chunk worker replies: the value list when all
fulfil, an error as soon as any worker rejected (worker `error` message or
crash). -/
def promiseAll {ε β : Type} : List (Except ε β) → Except ε (List β)
  | [] => Except.ok []
  | Except.ok a :: rest => (promiseAll rest).map (a :: ·)
  | Except.error e :: rest => Except.error e

/-- `analyzeWithParallelWorkers`, parameterized by the CPU count and by the
outcome each dispatched worker produces for its chunk (`Except.error` models
a worker that throws, crashes, or replies with an `error` message).  On any
worker failure the `Promise.all` rejects, the `catch` rethrows, and the
caller receives a single error — no summary. -/
def analyzeWithParallelWorkers (numCPUs : Nat) (games : List GameRec)
    (onlyForUsername bootstrapOpening : Option String)
    (workerOutcome : List GameRec → Except String Summary) :
    Except String Summary :=
  let numWorkers := if truthy bootstrapOpening then 1 else min numCPUs 8
  let workingSet :=
    if truthy bootstrapOpening then
      games.filter (fun g => openingOf g = bootstrapOpening.getD "")
    else games
  let chunkSize := (workingSet.length + numWorkers - 1) / numWorkers
  let chunks := chunksOf chunkSize workingSet
  (promiseAll (chunks.map workerOutcome)).map mergeSummaries

/-! ## The content-addressed cache (`SummaryCache`) -/

/-- The canonical cache-key payload: `[id, opening, analysisLength]` tuples
sorted by id, plus the `|| ''`-normalized options.  The source JSON-serializes
this and takes a SHA-256 digest; both are injective on this shape, so the
digest is modelled as the identity on the payload (see the header comment). -/
structure KeyPayload where
  g : List (String × String × Nat)
  onlyForUsername : String
  bootstrapOpening : String
deriving DecidableEq, Repr

/-- The sort key for `arr.sort((a, b) => a[0].localeCompare(b[0]))`: the id's
characters.  `localeCompare` is modelled as the lexicographic order on code
points (any fixed total order gives the same theorems; on equal ids the
comparator returns `0` in every locale, which is what the counterexample
exercises). -/
def idKey (t : String × String × Nat) : List Char := t.1.data

/-- Strict lexicographic order on character lists. -/
def lexLt : List Char → List Char → Bool
  | [], [] => false
  | [], _ :: _ => true
  | _ :: _, [] => false
  | a :: as, b :: bs => if a < b then true else if b < a then false else lexLt as bs

def computeKeyFromDataset (games : List GameRec)
    (onlyForUsername bootstrapOpening : Option String) : KeyPayload :=
  { g := ssort idKey lexLt
      (games.map (fun g => (g.id, openingOf g, g.analysis.length))),
    onlyForUsername := jsOr onlyForUsername "",
    bootstrapOpening := jsOr bootstrapOpening "" }

/-- One disk-index entry (`CacheEntryIndex`). -/
structure CacheEntryIndex where
  key : String
  offset : Nat
  length : Nat
  createdAt : Nat
  version : Nat
  size : Nat
  deleted : Bool := false
deriving DecidableEq, Repr

/-- The cache state the claims are about: the physical size of the
append-only data log, the disk index and the per-key version map.
(The in-memory LRU tier and the metrics counters do not affect these
claims and are omitted.) -/
structure CacheState where
  dataFileSize : Nat := 0
  index : List (String × CacheEntryIndex) := []
  versionMap : List (String × Nat) := []
  maxDiskBytes : Nat
deriving DecidableEq, Repr

/-- `getVersion`: `this.versionMap.get(key) ?? 1`. -/
def getVersion (st : CacheState) (k : String) : Nat :=
  (mget st.versionMap k).getD 1

/-- The sort key for the eviction pass (`sort((a, b) => a.createdAt - b.createdAt)`). -/
def createdKey (e : CacheEntryIndex) : Nat := e.createdAt

/-- Ascending order on `createdAt`. -/
def precAsc (u v : Nat) : Bool := u < v

/-- The body of the `for (const ent of entries)` eviction loop: mark and drop
the entry from index and version map, re-`stat` the (unchanged) data file,
stop when it is within budget. -/
def evictLoop (maxBytes fileSize : Nat) :
    List CacheEntryIndex → List (String × CacheEntryIndex) → List (String × Nat) →
      List (String × CacheEntryIndex) × List (String × Nat)
  | [], idx, vm => (idx, vm)
  | ent :: rest, idx, vm =>
    let idx' := mdelete idx ent.key
    let vm' := mdelete vm ent.key
    if fileSize ≤ maxBytes then (idx', vm')
    else evictLoop maxBytes fileSize rest idx' vm'

/-- `evictIfNeeded`: compare the physical data-log size against the budget;
when over, walk the live index entries oldest-`createdAt`-first, logically
deleting each and re-checking the (never-shrinking) physical size. -/
def evictIfNeeded (st : CacheState) : CacheState :=
  if st.dataFileSize ≤ st.maxDiskBytes then st
  else
    let entries := ssort createdKey precAsc
      ((st.index.map (·.2)).filter (fun e => ¬ e.deleted))
    let r := evictLoop st.maxDiskBytes st.dataFileSize entries st.index st.versionMap
    { st with index := r.1, versionMap := r.2 }

/-- `save`: bump (or take) the version, append the compressed entry of
`gzLen` bytes at the current end of the log, update index, memory and
version map, persist, then run eviction.  `now` is `Date.now()`. -/
def save (st : CacheState) (k : String) (overrideVersion : Option Nat)
    (gzLen : Nat) (now : Nat) : CacheState :=
  let version := overrideVersion.getD (getVersion st k + 1)
  let offset := st.dataFileSize
  let entry : CacheEntryIndex :=
    { key := k, offset := offset, length := gzLen, createdAt := now,
      version := version, size := gzLen }
  evictIfNeeded
    { st with
        versionMap := mset st.versionMap k version,
        dataFileSize := st.dataFileSize + gzLen,
        index := mset st.index k entry }

/-! ## Basic map lemmas -/

theorem mget_mset_self {σ τ : Type} [DecidableEq σ] (m : List (σ × τ)) (k : σ)
    (v : τ) : mget (mset m k v) k = some v := by
  by_cases h : m.any (fun p => p.1 = k)
  · simp only [mset, h, if_pos]
    induction m with
    | nil => simp at h
    | cons p t ih =>
      by_cases hp : p.1 = k
      · simp [mget, List.find?, hp]
      · have ht : t.any (fun q => q.1 = k) := by
          simp only [List.any_cons] at h
          rcases Bool.or_eq_true .. |>.mp h with h1 | h1
          · exact absurd (by simpa using h1) hp
          · exact h1
        have := ih ht
        simpa [mget, List.find?, hp] using this
  · simp only [mset, h, if_neg, Bool.false_eq_true, not_false_iff]
    induction m with
    | nil => simp [mget]
    | cons p t ih =>
      simp only [List.any_cons, Bool.or_eq_true, not_or] at h
      have hp : ¬ p.1 = k := by simpa using h.1
      simpa [mget, List.find?, hp] using ih (by simpa using h.2)

/-- Values reachable through `mget` satisfy any invariant of the map's
values. -/
theorem mget_invariant {σ τ : Type} [DecidableEq σ] {P : τ → Prop}
    {m : List (σ × τ)} (hm : ∀ p ∈ m, P p.2) {k : σ} {v : τ}
    (h : mget m k = some v) : P v := by
  simp only [mget] at h
  obtain ⟨p, hp, rfl⟩ := Option.map_eq_some'.mp h
  exact hm p (List.find?_mem hp)

theorem mset_invariant {σ τ : Type} [DecidableEq σ] {P : τ → Prop}
    {m : List (σ × τ)} (hm : ∀ p ∈ m, P p.2) {k : σ} {v : τ} (hv : P v) :
    ∀ p ∈ mset m k v, P p.2 := by
  intro p hp
  simp only [mset] at hp
  by_cases h : m.any (fun q => q.1 = k)
  · rw [if_pos h] at hp
    obtain ⟨q, hq, hqe⟩ := List.mem_map.mp hp
    by_cases hqk : q.1 = k
    · rw [if_pos hqk] at hqe
      rw [← hqe]
      exact hv
    · rw [if_neg hqk] at hqe
      exact hqe ▸ hm q hq
  · rw [if_neg h] at hp
    rcases List.mem_append.mp hp with h1 | h1
    · exact hm p h1
    · simp only [List.mem_singleton] at h1
      rw [h1]
      exact hv

/-! ## C2 — cache versioning -/

/-- C2 counterexample input: a fresh cache with an ample budget. -/
def freshCache : CacheState := { maxDiskBytes := 1000000 }

/-- [C2] counterexample: the claim says the first `save` of a key records
version 1; on a fresh cache the first `save` records version 2
(`getVersion` of an unseen key defaults to 1 and `save` stores default + 1). -/
theorem first_save_records_version_two :
    getVersion (save freshCache "k" none 10 1) "k" = 2 ∧ (2 : Nat) ≠ 1 := by
  constructor
  · rfl
  · decide

/-- [C2] amended: provided the data log stays within the disk budget (so the
post-`save` eviction pass does not clear the key), each `save` without an
explicit version stores exactly the previous `getVersion` plus one; since
`getVersion` of an unseen key reports 1, the n-th save of a key records
version n + 1 — strictly increasing, but starting at 2, not 1. -/
theorem save_bumps_version_by_one (st : CacheState) (k : String)
    (gz now : Nat) (h : st.dataFileSize + gz ≤ st.maxDiskBytes) :
    getVersion (save st k none gz now) k = getVersion st k + 1 := by
  unfold save evictIfNeeded
  simp only [Option.getD_none]
  rw [if_pos (by simpa using h)]
  show (mget (mset st.versionMap k (getVersion st k + 1)) k).getD 1 = _
  rw [mget_mset_self]
  rfl

theorem save_bumps_version_by_one_witness :
    freshCache.dataFileSize + 10 ≤ freshCache.maxDiskBytes ∧
      getVersion (save freshCache "k" none 10 1) "k" = getVersion freshCache "k" + 1 :=
  ⟨by decide, save_bumps_version_by_one freshCache "k" 10 1 (by decide)⟩

/-! ## C3 — disk eviction -/

/-- Two live 80-byte entries, a 160-byte log, a 100-byte budget.  The claim
expects eviction to delete only the older entry (the remaining live bytes,
80, are within budget); the code re-`stat`s the physical log, which logical
deletion never shrinks, so the stop condition never fires and *every* entry
is deleted. -/
def evictEnt1 : CacheEntryIndex :=
  { key := "k1", offset := 0, length := 80, createdAt := 1, version := 2, size := 80 }

def evictEnt2 : CacheEntryIndex :=
  { key := "k2", offset := 80, length := 80, createdAt := 2, version := 2, size := 80 }

def overBudgetCache : CacheState :=
  { dataFileSize := 160,
    index := [("k1", evictEnt1), ("k2", evictEnt2)],
    versionMap := [("k1", 2), ("k2", 2)],
    maxDiskBytes := 100 }

/-- [C3] the code at the failing input: eviction deletes *both* entries
(index and version map end up empty), even though deleting only the oldest
entry would already leave the live bytes (80) within the 100-byte budget. -/
theorem evict_over_budget_clears_all_entries :
    (evictIfNeeded overBudgetCache).index = [] ∧
      (evictIfNeeded overBudgetCache).versionMap = [] ∧
      ((overBudgetCache.index.filter (fun p => ¬ p.1 = "k1")).map
          (fun p => p.2.size)).sum ≤ overBudgetCache.maxDiskBytes := by
  refine ⟨rfl, rfl, by decide⟩

/-! ## C8 — worker failure aborts the batch -/

theorem promiseAll_error {ε β : Type} (l : List (Except ε β))
    (h : ∃ x ∈ l, x.isOk = false) : (promiseAll l).isOk = false := by
  induction l with
  | nil => simp at h
  | cons x rest ih =>
    obtain ⟨y, hy, hyerr⟩ := h
    cases x with
    | error e => rfl
    | ok a =>
      rcases List.mem_cons.mp hy with rfl | hy'
      · simp [Except.isOk, Except.toBool] at hyerr
      · have := ih ⟨y, hy', hyerr⟩
        cases hall : promiseAll rest with
        | ok bs => rw [hall] at this; simp [Except.isOk, Except.toBool] at this
        | error e => simp [promiseAll, hall, Except.map, Except.isOk, Except.toBool]

/-- [C8] if any dispatched worker's outcome is a failure, the whole batch is
an error: `Promise.all` rejects, the orchestrator rethrows, and the caller
gets a single error — no partial summary for any input game list and
options. -/
theorem worker_failure_fails_batch (numCPUs : Nat) (games : List GameRec)
    (onlyForUsername bootstrapOpening : Option String)
    (workerOutcome : List GameRec → Except String Summary)
    (c : List GameRec)
    (hc : c ∈ chunksOf
      (((if truthy bootstrapOpening then
            games.filter (fun g => openingOf g = bootstrapOpening.getD "")
          else games).length +
          (if truthy bootstrapOpening then 1 else min numCPUs 8) - 1) /
        (if truthy bootstrapOpening then 1 else min numCPUs 8))
      (if truthy bootstrapOpening then
          games.filter (fun g => openingOf g = bootstrapOpening.getD "")
        else games))
    (hfail : (workerOutcome c).isOk = false) :
    (analyzeWithParallelWorkers numCPUs games onlyForUsername bootstrapOpening
        workerOutcome).isOk = false := by
  unfold analyzeWithParallelWorkers
  have herr : (promiseAll ((chunksOf _ _).map workerOutcome)).isOk = false :=
    promiseAll_error _ ⟨workerOutcome c, List.mem_map_of_mem _ hc, hfail⟩
  cases hall : promiseAll ((chunksOf _ _).map workerOutcome) with
  | ok bs => rw [hall] at herr; simp [Except.isOk, Except.toBool] at herr
  | error e => simp [hall, Except.map, Except.isOk, Except.toBool]

def failingWorker : List GameRec → Except String Summary :=
  fun _ => Except.error "worker crashed"

theorem worker_failure_fails_batch_witness :
    ([({} : GameRec)] ∈ chunksOf 1 [({} : GameRec)] ∧
        (failingWorker [({} : GameRec)]).isOk = false) ∧
      (analyzeWithParallelWorkers 1 [({} : GameRec)] none none
          failingWorker).isOk = false :=
  ⟨⟨by decide, rfl⟩,
    worker_failure_fails_batch 1 [{}] none none failingWorker [{}] (by decide) rfl⟩

/-! ## C1 — mover-centric loss vs the derivation pass -/

/-- `lossForMover`, as defined in `analyzeGamesWithPrecomputedData` in the
same server analysis module (and in the client classifier): skip when either
cp is missing or either entry carries a mate flag; otherwise the loss for the
mover is `max(0, -deltaWhite)` for white (odd ply) and `max(0, deltaWhite)`
for black. -/
def lossForMover (prev curr : EvalEntry) (plyIndex : Int) : Int :=
  match prev.cp, curr.cp with
  | some a, some b =>
    if prev.mate.isSome ∨ curr.mate.isSome then 0
    else if plyIndex.tmod 2 = 1 then max 0 (-(b - a)) else max 0 (b - a)
  | _, _ => 0

/-- A game classified from raw evaluations only: the evaluation recovers
from −300 to 0 on white's ply 3 (the opponent's earlier blunder being
punished) — the mover-centric loss of that move is 0. -/
def recoveryGame : GameRec :=
  { id := "R", openingName := some "Op",
    analysis := [ { ply := some 2, evalCp := some (-300) },
                  { ply := some 3, evalCp := some 0 } ] }

/-- [C1] the exported `analyzeGames` derivation pass uses
`Math.abs(curr.cp - prev.cp)` and blames the mover for *any* swing: on
`recoveryGame` it emits a 300 cp blunder against white's ply 3, although the
mover-centric loss required by the claim (and computed by `lossForMover` in
the same module, which the repository's own classifier tests pin down) is 0
for that move.  The claim is right about the intent; the shipped derivation
pass contradicts it. -/
theorem analyzeGames_abs_delta_blames_recovery :
    ((analyzeGames [recoveryGame] none none).topBlunders.map
        (fun e => (e.ply, e.side, e.centipawnLoss))) =
      [(3, Side.white, some 300)] ∧
      lossForMover ⟨some (-300), none, some 2⟩ ⟨some 0, none, some 3⟩ 3 = 0 ∧
      (analyzeGames [recoveryGame] none none).total.blunders = 1 := by
  refine ⟨rfl, by decide, rfl⟩

/-! ## C9 — mate-distance evaluations -/

/-- An adversarial pair: the second entry carries both a numeric cp and a
mate flag (`{ eval: { cp: 300, mate: 5 } }`). -/
def mateWithCpGame : GameRec :=
  { id := "M", openingName := some "Op",
    analysis := [ { ply := some 1, evalCp := some 0 },
                  { ply := some 2, evalCp := some 300, evalMate := some 5 } ] }

/-- [C9] counterexample: the claim says any pair in which either entry
carries a mate-distance flag is skipped entirely; the derivation pass only
checks that both `cp` fields are numbers, so an entry carrying *both* a cp
and a mate flag is still classified — here it produces a blunder event. -/
theorem mate_flag_with_cp_still_classified :
    (mateWithCpGame.analysis.map (fun mv => mv.evalMate)) = [none, some 5] ∧
      (analyzeGames [mateWithCpGame] none none).total.blunders = 1 ∧
      ((analyzeGames [mateWithCpGame] none none).topBlunders.map
          (fun e => (e.ply, e.centipawnLoss))) = [(2, some 300)] := by
  refine ⟨rfl, rfl, rfl⟩

/-- [C9] amended: the derivation pass skips a pair (no numeric loss, no
event) exactly when either entry lacks a numeric cp; since a mate-scored
evaluation carries no cp in this pipeline's parsers, mate-only pairs produce
no loss and no event (and the pass is a total function — it never throws).
An entry carrying both a cp and a mate flag is still classified from its cp
(see the counterexample). -/
theorem evalStep_skips_missing_cp (gid opening : String) (ts : Option Side)
    (i : Nat) (prev curr : EvalEntry)
    (h : prev.cp = none ∨ curr.cp = none) :
    evalStep gid opening ts i prev curr = none := by
  have hd : absDelta prev curr = 0 := by
    rcases prev with ⟨pc, pm, pp⟩
    rcases curr with ⟨cc, cm, cpl⟩
    simp only at h
    rcases h with h | h <;> subst h
    · cases cc <;> rfl
    · cases pc <;> rfl
  simp only [evalStep]
  by_cases hp : passesFilter ts (curr.ply.getD (Int.ofNat i + 1)) = true
  · rw [if_neg (fun hn => hn hp)]
    rw [hd]
    rfl
  · rw [if_pos (by simpa using hp)]

theorem evalStep_skips_missing_cp_witness :
    (((⟨some 0, none, some 1⟩ : EvalEntry).cp = none ∨
        (⟨none, some 3, some 2⟩ : EvalEntry).cp = none)) ∧
      evalStep "g" "Op" none 1 ⟨some 0, none, some 1⟩ ⟨none, some 3, some 2⟩ = none :=
  ⟨Or.inr rfl,
    evalStep_skips_missing_cp "g" "Op" none 1 ⟨some 0, none, some 1⟩
      ⟨none, some 3, some 2⟩ (Or.inr rfl)⟩

/-! ## C10 — a truthy judgment label suppresses the derivation pass -/

/-- [C10] if any move of a game carries a truthy `judgment.name`, the
classifier takes only the label-trusting branch: the game's events are
exactly the label-pass events, and every one of them stems from a move with
a truthy judgment label at its own ply — moves carrying only numeric
evaluations contribute nothing. -/
theorem judgment_label_branch_exclusive (g : GameRec) (u : Option String)
    (h : hasJudgments g = true) :
    gameEvents u g =
        labelEvents g.id (openingOf g) (resolvedTarget g u) g.analysis ∧
      ∀ e ∈ gameEvents u g, ∃ i mv, g.analysis.get? i = some mv ∧
        truthy mv.judgmentName = true ∧ e.ply = mv.ply.getD (Int.ofNat i + 1) := by
  have h1 : gameEvents u g =
      labelEvents g.id (openingOf g) (resolvedTarget g u) g.analysis := by
    simp [gameEvents, h]
  refine ⟨h1, ?_⟩
  intro e he
  rw [h1] at he
  obtain ⟨p, hp, hstep⟩ := List.mem_filterMap.mp he
  obtain ⟨i, mv⟩ := p
  refine ⟨i, mv, by simpa [List.get?_eq_getElem?] using
    List.mk_mem_enum_iff_getElem?.mp hp, ?_, ?_⟩
  · rcases mv with ⟨mp, mj, mjc, mec, mem⟩
    cases mj with
    | none => exact absurd hstep (by simp [labelStep])
    | some jn =>
      by_cases hjn : jn = ""
      · subst hjn
        exact absurd hstep (by simp [labelStep])
      · simp [truthy, hjn]
  · rcases mv with ⟨mp, mj, mjc, mec, mem⟩
    cases mj with
    | none => exact absurd hstep (by simp [labelStep])
    | some jn =>
      by_cases hjn : jn = ""
      · subst hjn
        exact absurd hstep (by simp [labelStep])
      · simp only [labelStep] at hstep
        rw [if_neg hjn] at hstep
        by_cases hpass : passesFilter (resolvedTarget g u)
            ((mp : Option Int).getD (Int.ofNat i + 1)) = true
        · rw [if_neg (fun hn => hn hpass)] at hstep
          obtain ⟨k, _, hke⟩ := Option.map_eq_some'.mp hstep
          rw [← hke]
        · rw [if_pos (by simpa using hpass)] at hstep
          exact absurd hstep (by simp)

/-- A game with one labeled move and a 900 cp raw-evaluation swing elsewhere:
only the label event is emitted. -/
def labeledGame : GameRec :=
  { id := "L", openingName := some "Op",
    analysis := [ { ply := some 1, judgmentName := some "Mistake",
                    judgmentCp := some 180, evalCp := some 0 },
                  { ply := some 2, evalCp := some 900 } ] }

theorem judgment_label_branch_exclusive_witness :
    hasJudgments labeledGame = true ∧
      (gameEvents none labeledGame =
          labelEvents labeledGame.id (openingOf labeledGame)
            (resolvedTarget labeledGame none) labeledGame.analysis ∧
        ∀ e ∈ gameEvents none labeledGame, ∃ i mv,
          labeledGame.analysis.get? i = some mv ∧
            truthy mv.judgmentName = true ∧
            e.ply = mv.ply.getD (Int.ofNat i + 1)) :=
  ⟨rfl, judgment_label_branch_exclusive labeledGame none rfl⟩

/-! ## Shared bootstrap lemmas -/

theorem string_data_inj {s t : String} (h : s.data = t.data) : s = t := by
  cases s
  cases t
  exact congrArg String.mk h

/-- What a successful bootstrap application at one candidate ply implies:
non-zero ply, an index hit at the *full* rendered FEN string, a parity match,
and the event's exact shape (the candidate's opening and ply, the
aggregate's severity and loss, `bootstrapped = true`). -/
theorem applyAt_spec {idx : List (String × Agg)} {gid opening : String}
    {p : Int} {s : String} {e : MEvent}
    (h : applyAt idx gid opening (p, s) = some e) :
    p ≠ 0 ∧ ∃ agg, mget idx s = some agg ∧
      sideOfPly p = sideOfPly agg.ply ∧
      e = { gameId := gid, moveNumber := moveNumberOf p, ply := p,
            side := sideOfPly p, centipawnLoss := agg.cp, kind := agg.kind,
            opening := opening, bootstrapped := true } := by
  unfold applyAt at h
  by_cases hp : p = 0
  · rw [if_pos hp] at h
    exact absurd h (by simp)
  · rw [if_neg hp] at h
    refine ⟨hp, ?_⟩
    cases hidx : mget idx s with
    | none => rw [hidx] at h; exact absurd h (by simp)
    | some agg =>
      rw [hidx] at h
      simp only at h
      by_cases hside : sideOfPly p = sideOfPly agg.ply
      · rw [if_neg (fun hn => hn hside)] at h
        exact ⟨agg, rfl, hside, (Option.some.injEq .. ▸ h.symm ▸ rfl)⟩
      · rw [if_pos (by simpa using hside)] at h
        exact absurd h (by simp)

/-- Every bootstrap-applied event belongs to the *requested* opening, is
flagged `bootstrapped`, has the mover side of its own ply, and inherits
severity and loss from an index aggregate whose recorded parity matches. -/
theorem bootstrapEvents_spec {games : List GameRec} {rawLabels : List MEvent}
    {ro : String} {e : MEvent} (h : e ∈ bootstrapEvents games rawLabels ro) :
    e.opening = ro ∧ e.bootstrapped = true ∧ e.side = sideOfPly e.ply ∧
      ∃ agg, (∃ s, mget (fenIndex games rawLabels ro) s = some agg) ∧
        e.side = sideOfPly agg.ply ∧ e.kind = agg.kind ∧
        e.centipawnLoss = agg.cp := by
  unfold bootstrapEvents at h
  simp only [List.mem_flatten, List.mem_map] at h
  obtain ⟨l, ⟨g, hg, rfl⟩, hel⟩ := h
  by_cases h1 : gameIsEvaluated g = true
  · rw [if_pos h1] at hel
    simp at hel
  · rw [if_neg h1] at hel
    by_cases h2 : g.id = ""
    · rw [if_pos h2] at hel
      simp at hel
    · rw [if_neg h2] at hel
      by_cases h3 : jsOr (mget (openingByGame games) g.id) "Unknown" ≠ ro
      · rw [if_pos h3] at hel
        simp at hel
      · rw [if_neg h3] at hel
        push_neg at h3
        cases hpos : mget (positionsByGame games rawLabels ro) g.id with
        | none => rw [hpos] at hel; simp at hel
        | some pos =>
          rw [hpos] at hel
          obtain ⟨pf, _, happ⟩ := List.mem_filterMap.mp hel
          obtain ⟨p, s⟩ := pf
          obtain ⟨hp0, agg, hagg, hside, hrec⟩ := applyAt_spec happ
          subst hrec
          exact ⟨h3, rfl, rfl, agg, ⟨s, hagg⟩, hside, rfl, rfl⟩

theorem labelStep_some_fields {gid op : String} {ts : Option Side} {idx : Nat}
    {mv : AnalyzedMove} {e : MEvent} (h : labelStep gid op ts idx mv = some e) :
    e.opening = op ∧ e.bootstrapped = false ∧ e.gameId = gid := by
  rcases mv with ⟨mp, mj, mjc, mec, mem⟩
  cases mj with
  | none => exact absurd h (by simp [labelStep])
  | some jn =>
    by_cases hjn : jn = ""
    · subst hjn
      exact absurd h (by simp [labelStep])
    · simp only [labelStep] at h
      rw [if_neg hjn] at h
      by_cases hpass : passesFilter ts ((mp : Option Int).getD (Int.ofNat idx + 1)) = true
      · rw [if_neg (fun hn => hn hpass)] at h
        obtain ⟨k, _, hke⟩ := Option.map_eq_some'.mp h
        rw [← hke]
        exact ⟨rfl, rfl, rfl⟩
      · rw [if_pos (by simpa using hpass)] at h
        exact absurd h (by simp)

theorem evalStep_some_fields {gid op : String} {ts : Option Side} {i : Nat}
    {prev curr : EvalEntry} {e : MEvent}
    (h : evalStep gid op ts i prev curr = some e) :
    e.opening = op ∧ e.bootstrapped = false ∧ e.gameId = gid := by
  simp only [evalStep] at h
  by_cases hpass : passesFilter ts (curr.ply.getD (Int.ofNat i + 1)) = true
  · rw [if_neg (fun hn => hn hpass)] at h
    obtain ⟨k, _, hke⟩ := Option.map_eq_some'.mp h
    rw [← hke]
    exact ⟨rfl, rfl, rfl⟩
  · rw [if_pos (by simpa using hpass)] at h
    exact absurd h (by simp)

theorem mem_evalEventsAux {gid op : String} {ts : Option Side} :
    ∀ {i : Nat} {prev : EvalEntry} {rest : List EvalEntry} {e : MEvent},
      e ∈ evalEventsAux gid op ts i prev rest →
        ∃ j p c, evalStep gid op ts j p c = some e := by
  intro i prev rest
  induction rest generalizing i prev with
  | nil => intro e he; simp [evalEventsAux] at he
  | cons curr rest ih =>
    intro e he
    unfold evalEventsAux at he
    cases hstep : evalStep gid op ts i prev curr with
    | some e' =>
      rw [hstep] at he
      rcases List.mem_cons.mp he with rfl | he'
      · exact ⟨i, prev, curr, hstep⟩
      · exact ih he'
    | none =>
      rw [hstep] at he
      exact ih he

/-- Every non-bootstrap event a game contributes carries that game's
resolved opening, its id, and `bootstrapped = false`. -/
theorem gameEvents_spec {u : Option String} {g : GameRec} {e : MEvent}
    (h : e ∈ gameEvents u g) :
    e.opening = openingOf g ∧ e.bootstrapped = false ∧ e.gameId = g.id := by
  unfold gameEvents at h
  simp only [List.mem_append] at h
  rcases h with h | h
  · obtain ⟨p, _, hstep⟩ := List.mem_filterMap.mp h
    exact labelStep_some_fields hstep
  · by_cases hcond : (¬ hasJudgments g = true ∧ g.analysis ≠ [])
    · rw [if_pos hcond] at h
      unfold evalEvents at h
      cases hev : evalsOf g.analysis with
      | nil => rw [hev] at h; simp at h
      | cons e0 rest =>
        rw [hev] at h
        obtain ⟨j, p, c, hstep⟩ := mem_evalEventsAux h
        exact evalStep_some_fields hstep
    · rw [if_neg hcond] at h
      simp at h

theorem aggUpdate_opening (old : Agg) (lbl : MEvent) :
    (aggUpdate old lbl).opening = old.opening ∨
      (aggUpdate old lbl).opening = lbl.opening := by
  unfold aggUpdate
  cases hcp : lbl.centipawnLoss with
  | none =>
    by_cases hs : severityRank lbl.kind > severityRank old.kind
    · right; simp [hs]
    · left; simp [hs]
  | some c =>
    by_cases hs : severityRank lbl.kind > severityRank old.kind <;>
      by_cases hc : old.cp = none ∨ c > old.cp.getD 0
    · right; simp [hs, hc]
    · right; simp [hs, hc]
    · left; simp [hs, hc]
    · left; simp [hs, hc]

/-- A foldl invariant principle restricted to the elements folded over. -/
theorem foldl_invariant {β σ : Type} (P : σ → Prop) (f : σ → β → σ)
    (l : List β) (s0 : σ) (h0 : P s0)
    (hstep : ∀ s b, b ∈ l → P s → P (f s b)) : P (l.foldl f s0) := by
  induction l generalizing s0 with
  | nil => exact h0
  | cons b t ih =>
    exact ih (f s0 b) (hstep s0 b (List.mem_cons_self b t) h0)
      (fun s b' hb' hs => hstep s b' (List.mem_cons_of_mem b hb') hs)

/-- If every raw label belongs to opening `ro`, every aggregate of the FEN
index records opening `ro` — the whole-pipeline situation after the
orchestrator's opening prefilter. -/
theorem fenIndex_opening_invariant {games : List GameRec}
    {rawLabels : List MEvent} {ro : String}
    (hlab : ∀ l ∈ rawLabels, l.opening = ro) :
    ∀ q ∈ fenIndex games rawLabels ro, q.2.opening = ro := by
  unfold fenIndex
  refine foldl_invariant
    (fun (idx : List (String × Agg)) => ∀ q ∈ idx, q.2.opening = ro) _ rawLabels []
    (fun q hq => absurd hq (List.not_mem_nil q)) ?_
  intro idx lbl hlbl hidx q hq
  split at hq
  · exact hidx q hq
  · split at hq
    · exact hidx q hq
    · split at hq
      · exact mset_invariant (P := fun a => a.opening = ro) hidx
          (hlab lbl hlbl) q hq
      · rename_i old h3
        refine mset_invariant (P := fun a => a.opening = ro) hidx ?_ q hq
        rcases aggUpdate_opening old lbl with h | h
        · rw [h]
          exact mget_invariant (P := fun a => a.opening = ro) hidx h3
        · rw [h]
          exact hlab lbl hlbl

/-! ## C5 — the bootstrap index key is the full FEN -/

def fenK1 : Fen :=
  { placement := "rnbqkbnr/pppppppp/8/8/8/8/PPPPPPPP/RNBQKBNR",
    sideToMove := "w", castling := "KQkq", enPassant := "-",
    halfmove := "0", fullmove := "5" }

/-- The same placement and side to move, but white has lost castling
rights. -/
def fenK2 : Fen := { fenK1 with castling := "kq" }

def sigEvalGame : GameRec :=
  { id := "A", openingName := some "OpSig",
    analysis := [ { ply := some 2, judgmentName := some "Blunder",
                    judgmentCp := some 300 } ],
    positions := [(2, fenK1)] }

def sigUnevalGame : GameRec :=
  { id := "B", openingName := some "OpSig", analysis := [],
    positions := [(0, fenK1), (2, fenK2)] }

def sigUnevalCtrl : GameRec :=
  { id := "B", openingName := some "OpSig", analysis := [],
    positions := [(0, fenK2), (2, fenK1)] }

/-- [C5] counterexample: the claim says two positions differing only in
castling rights map to the same signature and are treated as identical by
the index.  The index key is the full FEN string: the unevaluated game
reaching the same placement and side to move — with only the castling field
changed — gets *no* bootstrapped judgment, while the control game carrying
the identical full FEN at the same ply does. -/
theorem bootstrap_castling_difference_blocks_match :
    fenK1.placement = fenK2.placement ∧ fenK1.sideToMove = fenK2.sideToMove ∧
      fenK1.castling ≠ fenK2.castling ∧ Fen.render fenK1 ≠ Fen.render fenK2 ∧
      (analyzeGames [sigEvalGame, sigUnevalGame] none (some "OpSig")).topMistakes
          = [] ∧
      ((analyzeGames [sigEvalGame, sigUnevalCtrl] none
            (some "OpSig")).topMistakes.map
          (fun e => (e.gameId, e.ply, e.bootstrapped))) = [("B", 2, true)] := by
  refine ⟨rfl, rfl, by decide, by decide, rfl, rfl⟩

/-- [C5] amended: the position signature used as the bootstrap index key is
the *full* six-field FEN (placement, side to move, castling rights,
en-passant target, and both clocks).  Two positions that agree everywhere
else but differ in castling rights render different signatures; and a
candidate ply is applied only on an index hit at its full rendered FEN, with
the aggregate's parity, severity and loss. -/
theorem bootstrap_signature_is_full_fen :
    (∀ f1 f2 : Fen, f1.placement = f2.placement →
        f1.sideToMove = f2.sideToMove → f1.enPassant = f2.enPassant →
        f1.halfmove = f2.halfmove → f1.fullmove = f2.fullmove →
        f1.castling ≠ f2.castling → Fen.render f1 ≠ Fen.render f2) ∧
      (∀ (idx : List (String × Agg)) (gid opening : String) (p : Int)
          (s : String) (e : MEvent), applyAt idx gid opening (p, s) = some e →
          ∃ agg, mget idx s = some agg ∧ sideOfPly p = sideOfPly agg.ply ∧
            e.kind = agg.kind ∧ e.centipawnLoss = agg.cp) := by
  constructor
  · intro f1 f2 hp hs hep hhm hfm hcast hr
    apply hcast
    have hd := congrArg String.data hr
    simp only [Fen.render, String.data_append, hp, hs, hep, hhm, hfm,
      List.append_assoc] at hd
    have h1 := List.append_cancel_left hd
    have h2 := List.append_cancel_left h1
    have h3 := List.append_cancel_left h2
    have h4 := List.append_cancel_left h3
    exact string_data_inj (List.append_cancel_right h4)
  · intro idx gid opening p s e h
    obtain ⟨_, agg, hagg, hside, hrec⟩ := applyAt_spec h
    subst hrec
    exact ⟨agg, hagg, hside, rfl, rfl⟩

def aggSample : Agg :=
  { kind := Kind.blunder, moveNumber := 1, ply := 2, opening := "OpSig",
    cp := some 300, frequency := 1 }

def bootSampleEvent : MEvent :=
  { gameId := "B", moveNumber := 1, ply := 2, side := Side.black,
    centipawnLoss := some 300, kind := Kind.blunder, opening := "OpSig",
    bootstrapped := true }

theorem bootstrap_signature_is_full_fen_witness :
    Fen.render fenK1 ≠ Fen.render fenK2 ∧
      (∃ agg, mget [(Fen.render fenK1, aggSample)] (Fen.render fenK1) = some agg ∧
        sideOfPly 2 = sideOfPly agg.ply ∧ bootSampleEvent.kind = agg.kind ∧
        bootSampleEvent.centipawnLoss = agg.cp) :=
  ⟨bootstrap_signature_is_full_fen.1 fenK1 fenK2 rfl rfl rfl rfl rfl (by decide),
    bootstrap_signature_is_full_fen.2 [(Fen.render fenK1, aggSample)] "B" "OpSig"
      2 (Fen.render fenK1) bootSampleEvent (by decide)⟩

/-! ## C6 — opening and parity guards of the bootstrap apply step -/

def crossEvalGame : GameRec :=
  { id := "A", openingName := some "OpA",
    analysis := [ { ply := some 2, judgmentName := some "Blunder",
                    judgmentCp := some 300 } ],
    positions := [(2, fenK1)] }

def crossUnevalGame : GameRec :=
  { id := "B", openingName := some "OpB", analysis := [],
    positions := [(0, fenK2), (2, fenK1)] }

/-- [C6] counterexample: the index is built from the raw labels of *all*
evaluated games regardless of opening; here a judgment from a game of
opening `OpA` is applied to an unevaluated game of the requested opening
`OpB` — a position match coming from a game of a different opening *is*
applied at engine level. -/
theorem bootstrap_applies_cross_opening_source :
    ((analyzeGames [crossEvalGame, crossUnevalGame] none
          (some "OpB")).topMistakes.map
        (fun e => (e.gameId, e.bootstrapped, e.opening))) = [("B", true, "OpB")] ∧
      openingOf crossEvalGame = "OpA" ∧
      ((mget (fenIndex [crossEvalGame, crossUnevalGame]
            (([crossEvalGame, crossUnevalGame].map (gameEvents none)).flatten)
            "OpB")
          (Fen.render fenK1)).map (fun a => a.opening)) = some "OpA" ∧
      ("OpA" : String) ≠ "OpB" := by
  refine ⟨rfl, rfl, rfl, by decide⟩

/-- [C6] amended: a bootstrapped judgment is applied to a candidate ply only
when the *candidate* game's opening equals the requested bootstrap opening
and the candidate's ply parity matches the parity recorded in the index
aggregate; the source game's opening is not compared at engine level.  In
the orchestrated pipeline the pre-filter makes every dispatched game share
the requested opening, and then every index aggregate records that same
opening, so source and candidate openings coincide. -/
theorem bootstrap_opening_and_parity_guards :
    (∀ (games : List GameRec) (rawLabels : List MEvent) (ro : String)
        (e : MEvent), e ∈ bootstrapEvents games rawLabels ro →
        e.opening = ro ∧ e.bootstrapped = true ∧ e.side = sideOfPly e.ply ∧
          ∃ agg, (∃ s, mget (fenIndex games rawLabels ro) s = some agg) ∧
            e.side = sideOfPly agg.ply ∧ e.kind = agg.kind) ∧
      (∀ (games : List GameRec) (u : Option String) (ro : String),
        (∀ g ∈ games, openingOf g = ro) →
        ∀ q ∈ fenIndex games ((games.map (gameEvents u)).flatten) ro,
          q.2.opening = ro) := by
  constructor
  · intro games rawLabels ro e h
    obtain ⟨h1, h2, h3, agg, hagg, hside, hkind, _⟩ := bootstrapEvents_spec h
    exact ⟨h1, h2, h3, agg, hagg, hside, hkind⟩
  · intro games u ro hall
    apply fenIndex_opening_invariant
    intro l hl
    obtain ⟨evs, hevs, hlev⟩ := List.mem_flatten.mp hl
    obtain ⟨g, hg, rfl⟩ := List.mem_map.mp hevs
    have := gameEvents_spec hlev
    rw [this.1]
    exact hall g hg

def crossBootEvent : MEvent :=
  { gameId := "B", moveNumber := 1, ply := 2, side := Side.black,
    centipawnLoss := some 300, kind := Kind.blunder, opening := "OpB",
    bootstrapped := true }

theorem bootstrap_opening_and_parity_guards_witness :
    (crossBootEvent.opening = "OpB" ∧ crossBootEvent.bootstrapped = true ∧
        crossBootEvent.side = sideOfPly crossBootEvent.ply ∧
        ∃ agg, (∃ s, mget (fenIndex [crossEvalGame, crossUnevalGame]
            (([crossEvalGame, crossUnevalGame].map (gameEvents none)).flatten)
            "OpB") s = some agg) ∧
          crossBootEvent.side = sideOfPly agg.ply ∧
          crossBootEvent.kind = agg.kind) ∧
      (∀ q ∈ fenIndex [sigEvalGame]
          (([sigEvalGame].map (gameEvents none)).flatten) "OpSig",
        q.2.opening = "OpSig") :=
  ⟨bootstrap_opening_and_parity_guards.1 [crossEvalGame, crossUnevalGame]
      (([crossEvalGame, crossUnevalGame].map (gameEvents none)).flatten) "OpB"
      crossBootEvent (by decide),
    bootstrap_opening_and_parity_guards.2 [sigEvalGame] none "OpSig"
      (by decide)⟩

/-! ## C4 — cache key derivation -/

theorem lexLt_cons_iff (a b : Char) (as bs : List Char) :
    lexLt (a :: as) (b :: bs) = true ↔ a < b ∨ (a = b ∧ lexLt as bs = true) := by
  by_cases h1 : a < b
  · simp [lexLt, h1]
  · by_cases h2 : b < a
    · have hne : ¬ a = b := fun he => absurd (he ▸ h2) (lt_irrefl a)
      simp [lexLt, h1, h2, hne]
    · have he : a = b := le_antisymm (not_lt.mp h2) (not_lt.mp h1)
      simp [lexLt, h1, h2, he]

theorem lexLt_asymm : ∀ u v : List Char, lexLt u v = true → lexLt v u = false := by
  intro u
  induction u with
  | nil =>
    intro v h
    cases v with
    | nil => simpa [lexLt] using h
    | cons b bs => rfl
  | cons a as ih =>
    intro v h
    cases v with
    | nil => simpa [lexLt] using h
    | cons b bs =>
      rcases (lexLt_cons_iff a b as bs).mp h with hab | ⟨rfl, htail⟩
      · by_cases hvu : lexLt (b :: bs) (a :: as) = true
        · rcases (lexLt_cons_iff b a bs as).mp hvu with hba | ⟨rfl, _⟩
          · exact absurd hba (lt_asymm hab)
          · exact absurd hab (lt_irrefl b)
        · simpa using hvu
      · by_cases hvu : lexLt (a :: bs) (a :: as) = true
        · rcases (lexLt_cons_iff a a bs as).mp hvu with hba | ⟨_, htail2⟩
          · exact absurd hba (lt_irrefl a)
          · rw [ih bs htail] at htail2
            simp at htail2
        · simpa using hvu

theorem lexLt_trans :
    ∀ u v w : List Char, lexLt u v = true → lexLt v w = true →
      lexLt u w = true := by
  intro u
  induction u with
  | nil =>
    intro v w huv hvw
    cases v with
    | nil => simpa [lexLt] using huv
    | cons b bs =>
      cases w with
      | nil => simpa [lexLt] using hvw
      | cons c cs => rfl
  | cons a as ih =>
    intro v w huv hvw
    cases v with
    | nil => simpa [lexLt] using huv
    | cons b bs =>
      cases w with
      | nil => simpa [lexLt] using hvw
      | cons c cs =>
        rcases (lexLt_cons_iff a b as bs).mp huv with hab | ⟨he1, htab⟩ <;>
          rcases (lexLt_cons_iff b c bs cs).mp hvw with hbc | ⟨he2, htbc⟩
        · exact (lexLt_cons_iff a c as cs).mpr (Or.inl (lt_trans hab hbc))
        · exact (lexLt_cons_iff a c as cs).mpr (Or.inl (by rw [← he2]; exact hab))
        · exact (lexLt_cons_iff a c as cs).mpr (Or.inl (by rw [he1]; exact hbc))
        · exact (lexLt_cons_iff a c as cs).mpr
            (Or.inr ⟨he1.trans he2, ih bs cs htab htbc⟩)

theorem lexLt_conn :
    ∀ u v : List Char, lexLt u v = false → lexLt v u = false → u = v := by
  intro u
  induction u with
  | nil =>
    intro v huv _
    cases v with
    | nil => rfl
    | cons b bs => simp [lexLt] at huv
  | cons a as ih =>
    intro v huv hvu
    cases v with
    | nil => simp [lexLt] at hvu
    | cons b bs =>
      have hab : ¬ a < b := by
        intro h
        rw [(lexLt_cons_iff a b as bs).mpr (Or.inl h)] at huv
        simp at huv
      have hba : ¬ b < a := by
        intro h
        rw [(lexLt_cons_iff b a bs as).mpr (Or.inl h)] at hvu
        simp at hvu
      have he : a = b := le_antisymm (not_lt.mp hba) (not_lt.mp hab)
      subst he
      have htuv : lexLt as bs = false := by
        by_cases h : lexLt as bs = true
        · rw [(lexLt_cons_iff a a as bs).mpr (Or.inr ⟨rfl, h⟩)] at huv
          simp at huv
        · simpa using h
      have htvu : lexLt bs as = false := by
        by_cases h : lexLt bs as = true
        · rw [(lexLt_cons_iff a a bs as).mpr (Or.inr ⟨rfl, h⟩)] at hvu
          simp at hvu
        · simpa using h
      rw [ih bs htuv htvu]

theorem filterKey_length_le_one {α κ : Type} [DecidableEq κ] {key : α → κ}
    {l : List α} (hn : (l.map key).Nodup) (k : κ) :
    (filterKey key k l).length ≤ 1 := by
  induction l with
  | nil => simp [filterKey]
  | cons a t ih =>
    simp only [List.map_cons, List.nodup_cons] at hn
    rw [filterKey_cons]
    by_cases hak : key a = k
    · rw [if_pos hak]
      have ht : filterKey key k t = [] := by
        refine List.filter_eq_nil_iff.mpr ?_
        intro x hx
        simp only [decide_eq_true_eq]
        intro hxk
        exact hn.1 (hak ▸ hxk ▸ List.mem_map_of_mem key hx)
      rw [ht]
      simp
    · rw [if_neg hak]
      exact ih hn.2

theorem filterKey_eq_of_perm_nodup {α κ : Type} [DecidableEq κ] {key : α → κ}
    {l1 l2 : List α} (hp : l1.Perm l2) (hn : (l1.map key).Nodup) (k : κ) :
    filterKey key k l1 = filterKey key k l2 := by
  have hp2 : (filterKey key k l1).Perm (filterKey key k l2) := hp.filter _
  have h1 : (filterKey key k l1).length ≤ 1 := filterKey_length_le_one hn k
  cases f1 : filterKey key k l1 with
  | nil =>
    rw [f1] at hp2
    exact (List.Perm.nil_eq hp2)
  | cons x t =>
    rw [f1] at hp2 h1
    cases t with
    | nil => exact (List.perm_singleton.mp hp2.symm).symm
    | cons y s => simp at h1

/-- The tuple a game contributes to the key payload. -/
def keyTuple (g : GameRec) : String × String × Nat :=
  (g.id, openingOf g, g.analysis.length)

def dupA : GameRec := { id := "a", openingName := some "X" }
def dupB : GameRec := { id := "a", openingName := some "Y" }

/-- [C4] counterexample: two games share the id `"a"` but differ in opening;
the sort compares only ids (`localeCompare` returns 0 on equal ids, and the
sort is stable), so the two orders of the same list serialize differently
and hash to different keys — the key is *not* invariant under permutation
when game ids repeat. -/
theorem computeKey_duplicate_id_permutation_varies :
    computeKeyFromDataset [dupA, dupB] none none ≠
      computeKeyFromDataset [dupB, dupA] none none := by
  decide

/-- [C4] amended: (1) for datasets whose game ids are pairwise distinct, the
key is invariant under any permutation of the games array (options fixed);
(2) key equality forces the multisets of `(id, opening, evaluated-move-count)`
tuples to coincide and the `|| ''`-normalized options to coincide — so
changing any game id, opening name, evaluated-move-count, or normalized
option value changes the key. -/
theorem computeKey_perm_invariant_and_discriminating :
    (∀ (gs1 gs2 : List GameRec) (o b : Option String), gs1.Perm gs2 →
        (gs1.map GameRec.id).Nodup →
        computeKeyFromDataset gs1 o b = computeKeyFromDataset gs2 o b) ∧
      (∀ (gs1 gs2 : List GameRec) (o1 b1 o2 b2 : Option String),
        computeKeyFromDataset gs1 o1 b1 = computeKeyFromDataset gs2 o2 b2 →
          (gs1.map keyTuple).Perm (gs2.map keyTuple) ∧
            jsOr o1 "" = jsOr o2 "" ∧ jsOr b1 "" = jsOr b2 "") := by
  constructor
  · intro gs1 gs2 o b hp hn
    unfold computeKeyFromDataset
    have hsort : ssort idKey lexLt (gs1.map (fun g => (g.id, openingOf g, g.analysis.length))) =
        ssort idKey lexLt (gs2.map (fun g => (g.id, openingOf g, g.analysis.length))) := by
      refine ssort_eq_of_filterKey lexLt_asymm lexLt_trans lexLt_conn ?_
      intro k
      refine filterKey_eq_of_perm_nodup (hp.map _) ?_ k
      rw [List.map_map]
      have hinj : Function.Injective String.data := fun a b h => string_data_inj h
      have : (gs1.map (idKey ∘ fun g => (g.id, openingOf g, g.analysis.length))) =
          (gs1.map GameRec.id).map String.data := by
        rw [List.map_map]
        rfl
      rw [this]
      exact hn.map (fun a b h => hinj h)
    rw [hsort]
  · intro gs1 gs2 o1 b1 o2 b2 h
    have hg : ssort idKey lexLt (gs1.map (fun g => (g.id, openingOf g, g.analysis.length))) =
        ssort idKey lexLt (gs2.map (fun g => (g.id, openingOf g, g.analysis.length))) :=
      congrArg KeyPayload.g h
    refine ⟨?_, congrArg KeyPayload.onlyForUsername h,
      congrArg KeyPayload.bootstrapOpening h⟩
    have h1 : (gs1.map (fun g => (g.id, openingOf g, g.analysis.length))).Perm
        (ssort idKey lexLt
          (gs1.map (fun g => (g.id, openingOf g, g.analysis.length)))) :=
      (ssort_perm _).symm
    have h2 : (ssort idKey lexLt
        (gs2.map (fun g => (g.id, openingOf g, g.analysis.length)))).Perm
        (gs2.map (fun g => (g.id, openingOf g, g.analysis.length))) :=
      ssort_perm _
    exact h1.trans (hg ▸ h2)

def distinctA : GameRec := { id := "a", openingName := some "X" }
def distinctB : GameRec :=
  { id := "b", openingName := some "Y",
    analysis := [ { ply := some 1 } ] }

theorem computeKey_perm_invariant_and_discriminating_witness :
    ([distinctA, distinctB].Perm [distinctB, distinctA] ∧
        ([distinctA, distinctB].map GameRec.id).Nodup ∧
        computeKeyFromDataset [distinctA, distinctB] none none =
          computeKeyFromDataset [distinctB, distinctA] none none) ∧
      (([distinctA].map keyTuple).Perm ([distinctA].map keyTuple) ∧
        jsOr (some "u") "" = jsOr (some "u") "" ∧ jsOr none "" = jsOr none "") :=
  ⟨⟨List.Perm.swap distinctB distinctA [], by decide,
      computeKey_perm_invariant_and_discriminating.1 [distinctA, distinctB]
        [distinctB, distinctA] none none (List.Perm.swap distinctB distinctA [])
        (by decide)⟩,
    computeKey_perm_invariant_and_discriminating.2 [distinctA] [distinctA]
      (some "u") none (some "u") none rfl⟩

/-! ## C7 — merge algebra and merged-vs-direct equivalence -/

def emptyTotals : Totals := {}

theorem addTotals_comm (a b : Totals) : addTotals a b = addTotals b a := by
  simp only [addTotals, Totals.mk.injEq]
  omega

theorem addTotals_assoc (a b c : Totals) :
    addTotals (addTotals a b) c = addTotals a (addTotals b c) := by
  simp only [addTotals, Totals.mk.injEq]
  omega

theorem addTotals_zero_right (a : Totals) : addTotals a emptyTotals = a := by
  simp [addTotals, emptyTotals]

theorem addTotals_zero_left (a : Totals) : addTotals emptyTotals a = a := by
  simp [addTotals, emptyTotals]

/-- Severity tallies of an event list. -/
def tallyOf (events : List MEvent) : Totals :=
  { inaccuracies := events.countP (fun e => e.kind = Kind.inaccuracy),
    mistakes := events.countP (fun e => e.kind = Kind.mistake),
    blunders := events.countP (fun e => e.kind = Kind.blunder) }

/-- `summary.topBlunders` receives exactly the non-bootstrapped blunders. -/
def isTopBlunder (e : MEvent) : Bool :=
  decide (e.kind = Kind.blunder ∧ e.bootstrapped = false)

theorem foldl_addEvent_total (events : List MEvent) (s0 : Summary) :
    (events.foldl addEvent s0).total = addTotals s0.total (tallyOf events) := by
  induction events generalizing s0 with
  | nil => simp [tallyOf, addTotals_zero_right, emptyTotals, addTotals]
  | cons a es ih =>
    rw [List.foldl_cons, ih]
    cases ha : a.kind <;>
      simp only [addEvent, addTotals, tallyOf, List.countP_cons, ha,
        Totals.mk.injEq] <;>
      simp <;> omega

theorem foldl_addEvent_mbo (events : List MEvent) (s0 : Summary) (k : String) :
    (events.foldl addEvent s0).mistakesByOpening k =
      s0.mistakesByOpening k + events.countP (fun e => e.opening = k) := by
  induction events generalizing s0 with
  | nil => simp
  | cons a es ih =>
    rw [List.foldl_cons, ih, List.countP_cons]
    by_cases hk : a.opening = k
    · simp [addEvent, bumpMap, hk]
      omega
    · have hk2 : ¬ k = a.opening := fun h => hk h.symm
      simp [addEvent, bumpMap, hk, hk2]

theorem foldl_addEvent_bbo (events : List MEvent) (s0 : Summary) (k : String) :
    (events.foldl addEvent s0).blundersByOpening k =
      s0.blundersByOpening k +
        events.countP (fun e => e.opening = k ∧ e.kind = Kind.blunder) := by
  induction events generalizing s0 with
  | nil => simp
  | cons a es ih =>
    rw [List.foldl_cons, ih, List.countP_cons]
    by_cases hb : a.kind = Kind.blunder
    · by_cases hk : a.opening = k
      · simp [addEvent, bumpMap, hb, hk]
        omega
      · have hk2 : ¬ k = a.opening := fun h => hk h.symm
        simp [addEvent, bumpMap, hb, hk, hk2]
    · simp [addEvent, hb]

theorem foldl_addEvent_tb (events : List MEvent) (s0 : Summary) :
    (events.foldl addEvent s0).topBlunders =
      s0.topBlunders ++ events.filter isTopBlunder := by
  induction events generalizing s0 with
  | nil => simp
  | cons a es ih =>
    rw [List.foldl_cons, ih, List.filter_cons]
    by_cases hb : a.kind = Kind.blunder ∧ a.bootstrapped = false
    · simp [addEvent, hb, isTopBlunder]
    · simp [addEvent, hb, isTopBlunder]

theorem foldl_addEvent_tm (events : List MEvent) (s0 : Summary) :
    (events.foldl addEvent s0).topMistakes =
      s0.topMistakes ++ events.filter (fun e => e.bootstrapped) := by
  induction events generalizing s0 with
  | nil => simp
  | cons a es ih =>
    rw [List.foldl_cons, ih, List.filter_cons]
    by_cases hb : a.bootstrapped = true
    · simp [addEvent, hb]
    · simp [addEvent, hb]

/-- Componentwise sum of the worker summaries' totals. -/
def totalsSum (rs : List Summary) : Totals :=
  { inaccuracies := (rs.map (fun r => r.total.inaccuracies)).sum,
    mistakes := (rs.map (fun r => r.total.mistakes)).sum,
    blunders := (rs.map (fun r => r.total.blunders)).sum }

theorem foldl_mergeStep_total (rs : List Summary) (s0 : Summary) :
    (rs.foldl mergeStep s0).total = addTotals s0.total (totalsSum rs) := by
  induction rs generalizing s0 with
  | nil => simp [totalsSum, addTotals]
  | cons r rest ih =>
    rw [List.foldl_cons, ih]
    simp only [mergeStep, addTotals, totalsSum, List.map_cons, List.sum_cons,
      Totals.mk.injEq]
    omega

theorem foldl_mergeStep_mbo (rs : List Summary) (s0 : Summary) (k : String) :
    (rs.foldl mergeStep s0).mistakesByOpening k =
      s0.mistakesByOpening k + (rs.map (fun r => r.mistakesByOpening k)).sum := by
  induction rs generalizing s0 with
  | nil => simp
  | cons r rest ih =>
    rw [List.foldl_cons, ih]
    simp only [mergeStep, List.map_cons, List.sum_cons]
    omega

theorem foldl_mergeStep_bbo (rs : List Summary) (s0 : Summary) (k : String) :
    (rs.foldl mergeStep s0).blundersByOpening k =
      s0.blundersByOpening k + (rs.map (fun r => r.blundersByOpening k)).sum := by
  induction rs generalizing s0 with
  | nil => simp
  | cons r rest ih =>
    rw [List.foldl_cons, ih]
    simp only [mergeStep, List.map_cons, List.sum_cons]
    omega

theorem foldl_mergeStep_tb (rs : List Summary) (s0 : Summary) :
    (rs.foldl mergeStep s0).topBlunders =
      s0.topBlunders ++ (rs.map (fun r => r.topBlunders)).flatten := by
  induction rs generalizing s0 with
  | nil => simp
  | cons r rest ih =>
    rw [List.foldl_cons, ih]
    simp [mergeStep]

theorem foldl_mergeStep_tm (rs : List Summary) (s0 : Summary) :
    (rs.foldl mergeStep s0).topMistakes =
      s0.topMistakes ++ (rs.map (fun r => r.topMistakes)).flatten := by
  induction rs generalizing s0 with
  | nil => simp
  | cons r rest ih =>
    rw [List.foldl_cons, ih]
    simp [mergeStep]

theorem precDesc_asymm (u v : Int) : precDesc u v = true → precDesc v u = false := by
  simp only [precDesc, decide_eq_true_eq, decide_eq_false_iff_not]
  omega

theorem precDesc_trans (u v w : Int) :
    precDesc u v = true → precDesc v w = true → precDesc u w = true := by
  simp only [precDesc, decide_eq_true_eq]
  omega

theorem precDesc_conn (u v : Int) :
    precDesc u v = false → precDesc v u = false → u = v := by
  simp only [precDesc, decide_eq_false_iff_not]
  omega

theorem filter_flatten {β : Type} (p : β → Bool) (L : List (List β)) :
    (L.map (List.filter p)).flatten = L.flatten.filter p := by
  induction L with
  | nil => rfl
  | cons c cs ih =>
    simp only [List.map_cons, List.flatten_cons, List.filter_append, ih]

theorem countP_flatten {β : Type} (p : β → Bool) (L : List (List β)) :
    (L.map (List.countP p)).sum = L.flatten.countP p := by
  induction L with
  | nil => rfl
  | cons c cs ih =>
    simp only [List.map_cons, List.sum_cons, List.flatten_cons,
      List.countP_append, ih]

theorem flatten_map_flatten {β γ : Type} (f : β → List γ)
    (chunks : List (List β)) :
    (chunks.map (fun c => (c.map f).flatten)).flatten =
      ((chunks.flatten).map f).flatten := by
  induction chunks with
  | nil => rfl
  | cons c cs ih => simp [ih]

/-- The non-bootstrap `analyzeGames` in closed form: totals and per-opening
maps are event counts, the top lists are stable sorts of the matching event
sublists. -/
theorem analyzeGames_none_eq (gs : List GameRec) (uo : Option String) :
    analyzeGames gs uo none =
      { total := tallyOf ((gs.map (gameEvents uo)).flatten),
        mistakesByOpening := fun k =>
          ((gs.map (gameEvents uo)).flatten).countP (fun e => e.opening = k),
        blundersByOpening := fun k =>
          ((gs.map (gameEvents uo)).flatten).countP
            (fun e => e.opening = k ∧ e.kind = Kind.blunder),
        topBlunders :=
          sortTop (((gs.map (gameEvents uo)).flatten).filter isTopBlunder),
        topMistakes :=
          sortTop (((gs.map (gameEvents uo)).flatten).filter
            (fun e => e.bootstrapped)) } := by
  unfold analyzeGames
  simp only [List.append_nil]
  refine Summary.ext ?_ ?_ ?_ ?_ ?_
  · rw [foldl_addEvent_total]
    show addTotals emptyTotals _ = _
    rw [addTotals_zero_left]
  · funext k
    rw [foldl_addEvent_mbo]
    show 0 + _ = _
    rw [Nat.zero_add]
  · funext k
    rw [foldl_addEvent_bbo]
    show 0 + _ = _
    rw [Nat.zero_add]
  · rw [foldl_addEvent_tb]
    show sortTop ([] ++ _) = _
    rw [List.nil_append]
  · rw [foldl_addEvent_tm]
    show sortTop ([] ++ _) = _
    rw [List.nil_append]

/-- With a truthy `onlyForUsername`, the worker's auto-detection is bypassed
and the worker runs the classifier with exactly that option. -/
theorem workerSummary_truthy (u : String) (hu : u ≠ "") (c : List GameRec) :
    workerSummary (some u) c = analyzeGames c (some u) none := by
  simp [workerSummary, jsOrOpt, truthy, hu]

theorem sortTop_join_map (ls : List (List MEvent)) :
    sortTop ((ls.map sortTop).flatten) = sortTop ls.flatten := by
  show ssort lossKey precDesc ((ls.map (ssort lossKey precDesc)).flatten) =
    ssort lossKey precDesc ls.flatten
  exact ssort_join_map_ssort precDesc_asymm precDesc_trans precDesc_conn ls

theorem countP_chunks (p : MEvent → Bool) (f : GameRec → List MEvent)
    (chunks : List (List GameRec)) :
    (chunks.map (fun c => List.countP p ((c.map f).flatten))).sum =
      List.countP p ((chunks.flatten.map f).flatten) := by
  have h := countP_flatten p (chunks.map (fun c => (c.map f).flatten))
  rw [flatten_map_flatten] at h
  rw [← h, List.map_map]
  rfl

theorem filter_chunks (p : MEvent → Bool) (f : GameRec → List MEvent)
    (chunks : List (List GameRec)) :
    (chunks.map (fun c => List.filter p ((c.map f).flatten))).flatten =
      List.filter p ((chunks.flatten.map f).flatten) := by
  have h := filter_flatten p (chunks.map (fun c => (c.map f).flatten))
  rw [flatten_map_flatten] at h
  rw [← h, List.map_map]
  rfl

/-- Chunk games used by the C7 counterexample: different players in each
game, one even-ply (black) blunder judgment each. -/
def mergeGameA : GameRec :=
  { id := "a", openingName := some "Op",
    whiteSources := [some "alice"], blackSources := [some "bob"],
    analysis := [ { ply := some 2, judgmentName := some "Blunder",
                    judgmentCp := some 300 } ] }

def mergeGameB : GameRec :=
  { id := "b", openingName := some "Op",
    whiteSources := [some "carol"], blackSources := [some "dave"],
    analysis := [ { ply := some 2, judgmentName := some "Blunder",
                    judgmentCp := some 280 } ] }

/-- [C7] counterexample: with no `onlyForUsername` option, each worker
derives a username from *its own chunk* (here: the chunk's white player) and
filters to that side, suppressing both black blunders; classifying the
concatenated list directly derives `alice`, who appears in neither side of
game `b`, so game `b` is unfiltered and its blunder counted.  The merged
summary (0 blunders) differs from the direct one (1 blunder). -/
theorem merge_differs_from_direct_with_derived_usernames :
    (mergeSummaries [workerSummary none [mergeGameA],
        workerSummary none [mergeGameB]]).total.blunders = 0 ∧
      (workerSummary none [mergeGameA, mergeGameB]).total.blunders = 1 ∧
      (0 : Nat) ≠ 1 := by
  refine ⟨rfl, rfl, by decide⟩

/-- [C7] amended: (1) the merge is commutative and associative on severity
totals and on the per-opening count maps; (2) whenever the target username
option is provided (truthy), every worker runs with the same filter, and for
*every* partition of the game list into chunks the merged summary — the
order of the sorted `topBlunders` and `topMistakes` lists included — equals
the summary from classifying the concatenated list directly.  (With the
option absent, per-chunk username auto-detection can differ between chunks
and the equality fails; see the counterexample.) -/
theorem merge_algebra_and_fixed_username_equivalence :
    (∀ a b c : Summary,
        (mergeStep a b).total = (mergeStep b a).total ∧
          (mergeStep (mergeStep a b) c).total =
            (mergeStep a (mergeStep b c)).total ∧
          (mergeStep a b).mistakesByOpening = (mergeStep b a).mistakesByOpening ∧
          (mergeStep (mergeStep a b) c).mistakesByOpening =
            (mergeStep a (mergeStep b c)).mistakesByOpening ∧
          (mergeStep a b).blundersByOpening = (mergeStep b a).blundersByOpening ∧
          (mergeStep (mergeStep a b) c).blundersByOpening =
            (mergeStep a (mergeStep b c)).blundersByOpening) ∧
      (∀ (chunks : List (List GameRec)) (u : String), u ≠ "" →
        mergeSummaries (chunks.map (fun c => workerSummary (some u) c)) =
          analyzeGames chunks.flatten (some u) none) := by
  constructor
  · intro a b c
    refine ⟨addTotals_comm a.total b.total, addTotals_assoc a.total b.total c.total,
      funext fun k => ?_, funext fun k => ?_, funext fun k => ?_,
      funext fun k => ?_⟩ <;> simp [mergeStep] <;> omega
  · intro chunks u hu
    have hw : chunks.map (fun c => workerSummary (some u) c) =
        chunks.map (fun c => analyzeGames c (some u) none) :=
      congrArg chunks.map (funext (workerSummary_truthy u hu))
    rw [hw]
    have hworker : (fun c => analyzeGames c (some u) none) = fun c =>
        ({ total := tallyOf ((c.map (gameEvents (some u))).flatten),
           mistakesByOpening := fun k =>
             ((c.map (gameEvents (some u))).flatten).countP
               (fun e => e.opening = k),
           blundersByOpening := fun k =>
             ((c.map (gameEvents (some u))).flatten).countP
               (fun e => e.opening = k ∧ e.kind = Kind.blunder),
           topBlunders :=
             sortTop (((c.map (gameEvents (some u))).flatten).filter isTopBlunder),
           topMistakes :=
             sortTop (((c.map (gameEvents (some u))).flatten).filter
               (fun e => e.bootstrapped)) } : Summary) :=
      funext (fun c => analyzeGames_none_eq c (some u))
    rw [hworker, analyzeGames_none_eq chunks.flatten (some u)]
    unfold mergeSummaries
    refine Summary.ext ?_ ?_ ?_ ?_ ?_
    · show (List.foldl mergeStep emptySummary _).total = _
      rw [foldl_mergeStep_total]
      show addTotals emptyTotals _ = _
      rw [addTotals_zero_left]
      simp only [totalsSum, tallyOf]
      congr 1
      · rw [List.map_map]
        exact countP_chunks (fun e => decide (e.kind = Kind.inaccuracy))
          (gameEvents (some u)) chunks
      · rw [List.map_map]
        exact countP_chunks (fun e => decide (e.kind = Kind.mistake))
          (gameEvents (some u)) chunks
      · rw [List.map_map]
        exact countP_chunks (fun e => decide (e.kind = Kind.blunder))
          (gameEvents (some u)) chunks
    · funext k
      show (List.foldl mergeStep emptySummary _).mistakesByOpening k = _
      rw [foldl_mergeStep_mbo]
      show 0 + _ = _
      rw [Nat.zero_add, List.map_map]
      exact countP_chunks (fun e => decide (e.opening = k))
        (gameEvents (some u)) chunks
    · funext k
      show (List.foldl mergeStep emptySummary _).blundersByOpening k = _
      rw [foldl_mergeStep_bbo]
      show 0 + _ = _
      rw [Nat.zero_add, List.map_map]
      exact countP_chunks (fun e => decide (e.opening = k ∧ e.kind = Kind.blunder))
        (gameEvents (some u)) chunks
    · show sortTop (List.foldl mergeStep emptySummary _).topBlunders = _
      rw [foldl_mergeStep_tb]
      show sortTop ([] ++ _) = _
      rw [List.nil_append, List.map_map]
      show sortTop (chunks.map (fun c =>
        sortTop (((c.map (gameEvents (some u))).flatten).filter
          isTopBlunder))).flatten = _
      have hmap : (chunks.map (fun c =>
          sortTop (((c.map (gameEvents (some u))).flatten).filter isTopBlunder))) =
          (chunks.map (fun c =>
            ((c.map (gameEvents (some u))).flatten).filter isTopBlunder)).map
            sortTop := by
        rw [List.map_map]
        rfl
      rw [hmap, sortTop_join_map, filter_chunks]
    · show sortTop (List.foldl mergeStep emptySummary _).topMistakes = _
      rw [foldl_mergeStep_tm]
      show sortTop ([] ++ _) = _
      rw [List.nil_append, List.map_map]
      show sortTop (chunks.map (fun c =>
        sortTop (((c.map (gameEvents (some u))).flatten).filter
          (fun e => e.bootstrapped)))).flatten = _
      have hmap : (chunks.map (fun c =>
          sortTop (((c.map (gameEvents (some u))).flatten).filter
            (fun e => e.bootstrapped)))) =
          (chunks.map (fun c =>
            ((c.map (gameEvents (some u))).flatten).filter
              (fun e => e.bootstrapped))).map sortTop := by
        rw [List.map_map]
        rfl
      rw [hmap, sortTop_join_map, filter_chunks]

theorem merge_algebra_and_fixed_username_equivalence_witness :
    ("alice" : String) ≠ "" ∧
      mergeSummaries ([[mergeGameA], [mergeGameB]].map
          (fun c => workerSummary (some "alice") c)) =
        analyzeGames ([[mergeGameA], [mergeGameB]] :
            List (List GameRec)).flatten (some "alice") none :=
  ⟨by decide,
    merge_algebra_and_fixed_username_equivalence.2 [[mergeGameA], [mergeGameB]]
      "alice" (by decide)⟩
